import Mathlib

/-!
Verification of `resources/python/convert_cityjsonfeatures.py`, a script that
merges a base CityJSON document with CityJSONFeature fragments and exports the
merged document either verbatim (`cityjson`) or as per-level-of-detail binary
glb tiles (`3dtiles`).

The script is shallowly embedded below:
* `Json` models the JSON values manipulated by the script; `dumps` models
  `json.dumps(x, separators=(',', ':'))` (the compact encoding used by the
  script) and `jsonParse` models `json.loads` on such compact texts.
* `FS` models the file system touched by the script; `Ev` records the
  observable side effects (reads, prints, writes, unlink, mkdir, and the
  calls into the external cjio library).
* `Cjio` abstracts the external cjio library primitives the script delegates
  to (`add_cityjsonfeature`, `reproject`, `filter_lod`, `export2glb`); their
  internal semantics are out of scope and left as parameters.
* `merge`, `run3dtiles`, `writeCityjson` and `runMain` are the embeddings of
  the script's `merge` function and of its `__main__` block.
-/

set_option maxRecDepth 4000

namespace Tyler

/-- Left and right curly brace characters, used by the JSON printer/parser. -/
def lbraceC : Char := Char.ofNat 123

/-- Right curly brace character. -/
def rbraceC : Char := Char.ofNat 125

/-- JSON values, as produced by `json.load`/consumed by `json.dumps` in the
script.  Objects keep their members in insertion order, matching Python
dicts. -/
inductive Json where
  | jnull : Json
  | jbool (flag : Bool) : Json
  | jnum (ival : Int) : Json
  | jstr (sval : String) : Json
  | jarr (items : List Json) : Json
  | jobj (fields : List (String × Json)) : Json

/-- Escaping of a single character inside a JSON string literal (the script's
documents only require escaping of the quote and backslash characters; other
characters are emitted verbatim, which the matching parser accepts). -/
def escapeChar (c : Char) : List Char :=
  if c = '"' ∨ c = '\\' then ['\\', c] else [c]

/-- Escape a whole string body. -/
def escapeStr : List Char → List Char
  | [] => []
  | c :: cs => escapeChar c ++ escapeStr cs

/-- Decimal digits of a natural number, most significant first. -/
def natChars (n : Nat) : List Char :=
  if h : n < 10 then [Char.ofNat (48 + n)]
  else natChars (n / 10) ++ [Char.ofNat (48 + n % 10)]
decreasing_by exact Nat.div_lt_self (by omega) (by omega)

/-- Decimal rendering of an integer. -/
def intChars : Int → List Char
  | .ofNat n => natChars n
  | .negSucc n => '-' :: natChars (n + 1)

/-- A JSON string literal: quote, escaped body, quote. -/
def dumpsStr (s : String) : List Char :=
  '"' :: (escapeStr s.data ++ ['"'])

mutual

/-- `json.dumps(x, separators=(',', ':'))`: compact serialization. -/
def dumps : Json → List Char
  | .jnull => ['n', 'u', 'l', 'l']
  | .jbool true => ['t', 'r', 'u', 'e']
  | .jbool false => ['f', 'a', 'l', 's', 'e']
  | .jnum i => intChars i
  | .jstr s => dumpsStr s
  | .jarr xs => '[' :: (dumpsElems xs ++ [']'])
  | .jobj kvs => lbraceC :: (dumpsMembers kvs ++ [rbraceC])

/-- Array elements joined by the compact item separator `,`. -/
def dumpsElems : List Json → List Char
  | [] => []
  | [x] => dumps x
  | x :: y :: ys => dumps x ++ ',' :: dumpsElems (y :: ys)

/-- Object members `"key":value` joined by the compact item separator `,`. -/
def dumpsMembers : List (String × Json) → List Char
  | [] => []
  | [(k, v)] => dumpsStr k ++ ':' :: dumps v
  | (k, v) :: m :: ms => dumpsStr k ++ ':' :: dumps v ++ ',' :: dumpsMembers (m :: ms)

end

mutual

/-- Size measure of a JSON value, used as parser fuel. -/
def jsize : Json → Nat
  | .jnull => 1
  | .jbool _ => 1
  | .jnum _ => 1
  | .jstr _ => 1
  | .jarr xs => 1 + esize xs
  | .jobj kvs => 1 + msize kvs

/-- Size measure of an element list. -/
def esize : List Json → Nat
  | [] => 0
  | x :: xs => 1 + jsize x + esize xs

/-- Size measure of a member list. -/
def msize : List (String × Json) → Nat
  | [] => 0
  | kv :: kvs => 1 + jsize kv.2 + msize kvs

end

/-- Match an expected literal character sequence, returning the remainder. -/
def expectChars : List Char → List Char → Option (List Char)
  | [], cs => some cs
  | _ :: _, [] => none
  | p :: ps, c :: cs => if c = p then expectChars ps cs else none

/-- Parse the body of a JSON string literal (after the opening quote), up to
the closing quote, undoing `escapeChar`. -/
def parseStrBody : List Char → List Char → Option (List Char × List Char)
  | [], _ => none
  | c :: rest, acc =>
    if c = '"' then some (acc.reverse, rest)
    else if c = '\\' then
      match rest with
      | [] => none
      | d :: rest2 => parseStrBody rest2 (d :: acc)
    else parseStrBody rest (c :: acc)

/-- Value of a list of decimal digit characters. -/
def digitsToNat (ds : List Char) : Nat :=
  ds.foldl (fun a c => a * 10 + (c.toNat - 48)) 0

/-- Parse a maximal run of decimal digits. -/
def parseNat (cs : List Char) : Option (Nat × List Char) :=
  match cs.takeWhile Char.isDigit with
  | [] => none
  | ds => some (digitsToNat ds, cs.dropWhile Char.isDigit)

mutual

/-- Fueled recursive-descent parser for the compact JSON encoding emitted by
`dumps`; models `json.loads` on such texts. -/
def parseVal : Nat → List Char → Option (Json × List Char)
  | 0, _ => none
  | _ + 1, [] => none
  | fuel + 1, c :: cs =>
    if c = 'n' then (expectChars ['u', 'l', 'l'] cs).map (fun r => (Json.jnull, r))
    else if c = 't' then (expectChars ['r', 'u', 'e'] cs).map (fun r => (Json.jbool true, r))
    else if c = 'f' then (expectChars ['a', 'l', 's', 'e'] cs).map (fun r => (Json.jbool false, r))
    else if c = '"' then (parseStrBody cs []).map (fun p => (Json.jstr (String.mk p.1), p.2))
    else if c = '[' then
      match cs with
      | [] => none
      | d :: cs2 =>
        if d = ']' then some (Json.jarr [], cs2)
        else (parseElems fuel cs).map (fun p => (Json.jarr p.1, p.2))
    else if c = lbraceC then
      match cs with
      | [] => none
      | d :: cs2 =>
        if d = rbraceC then some (Json.jobj [], cs2)
        else (parseMembers fuel cs).map (fun p => (Json.jobj p.1, p.2))
    else if c = '-' then
      (parseNat cs).map (fun p => (Json.jnum (-(p.1 : Int)), p.2))
    else if c.isDigit then
      (parseNat (c :: cs)).map (fun p => (Json.jnum (p.1 : Int), p.2))
    else none

/-- Parse `v (, v)* ]`: the elements of a non-empty array. -/
def parseElems : Nat → List Char → Option (List Json × List Char)
  | 0, _ => none
  | fuel + 1, cs =>
    match parseVal fuel cs with
    | none => none
    | some (v, rest) =>
      match rest with
      | [] => none
      | d :: rest2 =>
        if d = ',' then (parseElems fuel rest2).map (fun p => (v :: p.1, p.2))
        else if d = ']' then some ([v], rest2)
        else none

/-- Parse `"k":v (, "k":v)* closing-brace`: the members of a non-empty object. -/
def parseMembers : Nat → List Char → Option (List (String × Json) × List Char)
  | 0, _ => none
  | fuel + 1, cs =>
    match cs with
    | [] => none
    | q :: cs2 =>
      if q = '"' then
        match parseStrBody cs2 [] with
        | none => none
        | some (k, rest) =>
          match rest with
          | [] => none
          | col :: rest2 =>
            if col = ':' then
              match parseVal fuel rest2 with
              | none => none
              | some (v, rest3) =>
                match rest3 with
                | [] => none
                | d :: rest4 =>
                  if d = ',' then
                    (parseMembers fuel rest4).map (fun p => ((String.mk k, v) :: p.1, p.2))
                  else if d = rbraceC then some ([(String.mk k, v)], rest4)
                  else none
            else none
      else none

end

/-- `json.loads` on a full document given as a character list: the whole text
must be consumed. -/
def jsonParseL (cs : List Char) : Option Json :=
  match parseVal (cs.length + 1) cs with
  | some (j, []) => some j
  | _ => none

/-- `json.loads` on a full document: the whole text must be consumed. -/
def jsonParse (s : String) : Option Json :=
  jsonParseL s.data

/-- The remainder after a serialized value must not begin with a digit (so a
serialized number is not extended); `,`, `]`, the closing brace and the empty
remainder all satisfy this. -/
def noDigitHead (cs : List Char) : Prop :=
  ∀ c, cs.head? = some c → c.isDigit = false


mutual

/-- Whether every string (key or value) in the document is free of whitespace
characters. -/
def noWsJson : Json → Bool
  | .jnull => true
  | .jbool _ => true
  | .jnum _ => true
  | .jstr s => s.data.all (fun c => !c.isWhitespace)
  | .jarr xs => noWsElems xs
  | .jobj kvs => noWsMembers kvs

/-- `noWsJson` over an element list. -/
def noWsElems : List Json → Bool
  | [] => true
  | x :: xs => noWsJson x && noWsElems xs

/-- `noWsJson` over a member list. -/
def noWsMembers : List (String × Json) → Bool
  | [] => true
  | kv :: kvs => kv.1.data.all (fun c => !c.isWhitespace) && noWsJson kv.2 && noWsMembers kvs

end

/-! ### Path model

`pathName`, `pathSuffix`, `pathStem`, `pathParent`, `joinPath` and
`withSuffix` model the corresponding `pathlib.PurePosixPath` operations on
plain relative or absolute paths (no `..` segments, no trailing slashes, no
symlinks); `Path.resolve` is modeled as the identity, file-system keys being
the already-resolved path strings. -/

/-- Final path component (`PurePosixPath.name`). -/
def pathName (p : String) : String :=
  String.mk ((p.data.reverse.takeWhile (fun c => c ≠ '/')).reverse)

/-- `PurePosixPath.suffix`: `name[i:]` for `i = name.rfind('.')` when
`0 < i < len(name) - 1`, else empty. -/
def pathSuffix (p : String) : String :=
  let n := (pathName p).data
  let ext := n.reverse.takeWhile (fun c => c ≠ '.')
  if ext.length ≠ 0 ∧ ext.length + 1 < n.length then String.mk ('.' :: ext.reverse) else ""

/-- `PurePosixPath.stem`: the name with `pathSuffix` removed. -/
def pathStem (p : String) : String :=
  let n := (pathName p).data
  let ext := n.reverse.takeWhile (fun c => c ≠ '.')
  if ext.length ≠ 0 ∧ ext.length + 1 < n.length then
    String.mk (n.take (n.length - (ext.length + 1)))
  else String.mk n

/-- `PurePosixPath.parent` for simple paths. -/
def pathParent (p : String) : String :=
  if p.data.contains '/' then
    let par := String.mk (((p.data.reverse.dropWhile (fun c => c ≠ '/')).tail).reverse)
    if par = "" then "/" else par
  else "."

/-- The `PurePosixPath` path-join operator `/`, for a normalized left operand
and a plain name on the right. -/
def joinPath (p n : String) : String :=
  if p = "." then n else if p = "/" then "/" ++ n else p ++ "/" ++ n

/-- `PurePosixPath.with_suffix` for a validated new suffix and a non-empty
name: drop the old suffix (when present) and append the new one. -/
def withSuffix (p suf : String) : String :=
  let n := pathName p
  let old := pathSuffix p
  let n2 := if old = "" then n ++ suf
            else String.mk (n.data.take (n.data.length - old.data.length)) ++ suf
  joinPath (pathParent p) n2

/-- The tile output path built by the `3dtiles` branch:
`(output_file.parent / (output_file.stem + suffix)).with_suffix(".glb")`. -/
def tilePath (output_file suffix : String) : String :=
  withSuffix (joinPath (pathParent output_file) (pathStem output_file ++ suffix)) ".glb"

/-! ### File system, events and the external library -/

/-- File system state: an association list of files (path ↦ contents, binary
contents modeled as byte strings) and the directories that exist. -/
structure FS where
  files : List (String × String)
  dirs : List String

/-- `open(p).read()` (or `json.load` input). -/
def FS.read (fs : FS) (p : String) : Option String := fs.files.lookup p

/-- `open(p, "w").write(c)` (or `"wb"`). -/
def FS.write (fs : FS) (p c : String) : FS := ⟨(p, c) :: fs.files, fs.dirs⟩

/-- `Path(p).unlink()`. -/
def FS.unlinkF (fs : FS) (p : String) : FS :=
  ⟨fs.files.filter (fun e => e.1 != p), fs.dirs⟩

/-- `Path(d).mkdir(parents=True, exist_ok=True)`. -/
def FS.mkdirP (fs : FS) (d : String) : FS := ⟨fs.files, d :: fs.dirs⟩

/-- Observable side effects of a run, in order. -/
inductive Ev where
  | readF (p : String)
  | print (msg : String)
  | unlink (p : String)
  | mkdir (p : String)
  | write (p : String) (content : String)
  | reproject (epsg : Nat)
  | filterLod (lod : String)
  | exportGlb

/-- The external cjio library as a black box: `CityJSON.add_cityjsonfeature`,
`CityJSON.reproject`, `CityJSON.filter_lod` and
`CityJSON.export2glb(do_triangulate=False)`, acting on the wrapped JSON
document `cm.j` (for export, producing the glb byte buffer). -/
structure Cjio where
  addFeature : Json → Json → Json
  reproject : Nat → Json → Json
  filterLod : String → Json → Json
  export2glb : Json → String

/-! ### The merge function -/

/-- Iterating over the lines of an open text file in Python: each line keeps
its trailing newline; a final segment with no newline is yielded when
non-empty. -/
def pyLinesAux : List Char → List Char → List String
  | [], acc => if acc.isEmpty then [] else [String.mk acc.reverse]
  | c :: cs, acc =>
    if c = '
' then String.mk (acc.reverse ++ ['
']) :: pyLinesAux cs []
    else pyLinesAux cs (c :: acc)

/-- The lines of a file's contents, as `for p in input_file` yields them. -/
def pythonLines (s : String) : List String := pyLinesAux s.data []

/-- `p.strip("\n")`: remove leading and trailing newline characters. -/
def stripNl (s : String) : String :=
  String.mk (((s.data.dropWhile (fun c => c = '\n')).reverse.dropWhile
    (fun c => c = '\n')).reverse)

/-- `k in cm.j` for an object document (the script only handles dicts;
non-dict documents raise in Python and are modeled as `false` here). -/
def hasKey (j : Json) (k : String) : Bool :=
  match j with
  | .jobj kvs => (kvs.lookup k).isSome
  | _ => false

/-- `cm.j[k]`. -/
def getKey (j : Json) (k : String) : Option Json :=
  match j with
  | .jobj kvs => kvs.lookup k
  | _ => none

/-- `if k not in cm.j: cm.j[k] = dflt` — Python dict assignment appends the
new key in insertion order. -/
def ensureKey (j : Json) (k : String) (dflt : Json) : Json :=
  match j with
  | .jobj kvs => if (kvs.lookup k).isSome then j else .jobj (kvs ++ [(k, dflt)])
  | _ => j

/-- `"type" in j1 and j1["type"] == 'CityJSONFeature'`. -/
def typeIsCJF (j : Json) : Bool :=
  match getKey j "type" with
  | some (.jstr t) => t = "CityJSONFeature"
  | _ => false

/-- Errors `merge` can raise (Python exceptions, propagated unhandled except
that the script itself raises `IOError` on a fragment type mismatch).
`baseNotDict` stands for the `TypeError` Python raises when the base document
is not a dict. -/
inductive MergeErr where
  | missingFile (p : String)
  | parseError (p : String)
  | baseNotDict (p : String)
  | notCityJSONFeature (line : Nat)

/-- The diagnostic printed for a non-`.jsonl` path. -/
def skipMsg (p : String) : String :=
  "Not a .jsonl file " ++ p ++ ", suffix: " ++ pathSuffix p

/-- The `for p in input_file` loop of `merge`: for each line, strip newlines
and resolve the path; `.jsonl` files are read, parsed and validated against
the `CityJSONFeature` type tag, then folded in via
`cm.add_cityjsonfeature(j1)`; any other path is skipped with a printed
diagnostic.  `lcount` is the script's line counter: `merge` initializes it to
1 and no statement in the loop ever increments it, so it is threaded through
unchanged. -/
def processLines (lib : Cjio) (fs : FS) (lcount : Nat) :
    List String → Json → Except MergeErr (Json × List Ev)
  | [], cm => .ok (cm, [])
  | p :: rest, cm =>
    let path := stripNl p
    if pathSuffix path = ".jsonl" then
      match fs.read path with
      | none => .error (.missingFile path)
      | some txt =>
        match jsonParse txt with
        | none => .error (.parseError path)
        | some j1 =>
          if typeIsCJF j1 then
            (processLines lib fs lcount rest (lib.addFeature cm j1)).map
              (fun r => (r.1, Ev.readF path :: r.2))
          else .error (.notCityJSONFeature lcount)
    else
      (processLines lib fs lcount rest cm).map
        (fun r => (r.1, Ev.print (skipMsg path) :: r.2))

/-- Result of `merge`: the returned document or raised exception, the file
system afterwards, and the observable events in order. -/
structure MergeOut where
  result : Except MergeErr Json
  fs : FS
  trace : List Ev

/-- The script's `merge(cityjson_path, path_features_input_file)`: load the
base document, default the `CityObjects` and `vertices` collections, fold in
every fragment listed in the pointer file, then delete the pointer file and
return the merged document. -/
def merge (lib : Cjio) (cityjson_path ptr : String) (fs : FS) : MergeOut :=
  match fs.read cityjson_path with
  | none => ⟨.error (.missingFile cityjson_path), fs, []⟩
  | some baseTxt =>
    match jsonParse baseTxt with
    | none => ⟨.error (.parseError cityjson_path), fs, [.readF cityjson_path]⟩
    | some j1 =>
      match j1 with
      | .jobj kvs =>
        let cm := ensureKey (ensureKey (Json.jobj kvs) "CityObjects" (.jobj []))
          "vertices" (.jarr [])
        match fs.read ptr with
        | none => ⟨.error (.missingFile ptr), fs, [.readF cityjson_path]⟩
        | some content =>
          match processLines lib fs 1 (pythonLines content) cm with
          | .error e => ⟨.error e, fs, [.readF cityjson_path, .readF ptr]⟩
          | .ok (cm2, evs) =>
            ⟨.ok cm2, fs.unlinkF ptr,
              [.readF cityjson_path, .readF ptr] ++ evs ++ [.unlink ptr]⟩
      | _ => ⟨.error (.baseNotDict cityjson_path), fs, [.readF cityjson_path]⟩

/-! ### The export branches and the main block -/

/-- A heap of live CityJSON documents: Python object identity is a cell
index, `deepcopy` allocates a fresh cell, and the in-place mutations
(`filter_lod`) update one cell. -/
structure Heap where
  cells : List Json

/-- Dereference. -/
def Heap.get (h : Heap) (l : Nat) : Option Json := h.cells[l]?

/-- In-place mutation of one object. -/
def Heap.setCell (h : Heap) (l : Nat) (v : Json) : Heap := ⟨h.cells.set l v⟩

/-- `deepcopy`: allocate a fresh cell holding a copy of the value. -/
def Heap.alloc (h : Heap) (v : Json) : Heap × Nat := (⟨h.cells ++ [v]⟩, h.cells.length)

/-- The hardcoded (level-of-detail, filename-suffix) list of the `3dtiles`
branch (the "for quadtree" variant left active in the source). -/
def lod_file_names : List (String × String) := [("2.2", "")]

/-- The `for lod, suffix in lod_file_names` loop: `cm_copy = deepcopy(cm)`,
`cm_copy.filter_lod(lod)`, `glb = cm_copy.export2glb(do_triangulate=False)`,
then write the tile file. -/
def tileLoop (lib : Cjio) (output_file : String) (cmLoc : Nat) :
    List (String × String) → Heap → FS → Heap × FS × List Ev
  | [], h, fs => (h, fs, [])
  | (lod, suffix) :: rest, h, fs =>
    let cmVal := (h.get cmLoc).getD .jnull
    let allocRes := h.alloc cmVal
    let h1 := allocRes.1
    let copyLoc := allocRes.2
    let h2 := h1.setCell copyLoc (lib.filterLod lod ((h1.get copyLoc).getD .jnull))
    let glb := lib.export2glb ((h2.get copyLoc).getD .jnull)
    let tile := tilePath output_file suffix
    let fs1 := fs.write tile glb
    let r := tileLoop lib output_file cmLoc rest h2 fs1
    (r.1, r.2.1, .filterLod lod :: .exportGlb :: .write tile glb :: r.2.2)

/-- Output of the `3dtiles` export branch: the final value of the `cm`
variable, the file system, and the events. -/
structure TilesOut where
  cm : Json
  fs : FS
  trace : List Ev

/-- The `3dtiles` branch of `__main__`: `cm.reproject(4978)` (in place),
then one glb tile per entry of `lod_file_names`, each produced from an
independent `deepcopy` of the reprojected document. -/
def run3dtiles (lib : Cjio) (output_file : String) (cm : Json) (fs : FS) : TilesOut :=
  let cm1 := lib.reproject 4978 cm
  let h0 : Heap := ⟨[cm1]⟩
  let r := tileLoop lib output_file 0 lod_file_names h0 fs
  ⟨(r.1.get 0).getD .jnull, r.2.1, .reproject 4978 :: r.2.2⟩

/-- The `cityjson` branch of `__main__`: write the merged document with
`json.dumps(cm.j, separators=(',', ':'))`. -/
def writeCityjson (output_file : String) (cm : Json) (fs : FS) : FS × List Ev :=
  (fs.write output_file (String.mk (dumps cm)),
    [.write output_file (String.mk (dumps cm))])

/-- Errors the `__main__` block can raise. -/
inductive MainErr where
  | indexError
  | unsupportedFormat (fmt : String)
  | unreachableFormat
  | mergeFailed (e : MergeErr)

/-- Result of a whole run. -/
structure RunOut where
  fs : FS
  trace : List Ev
  result : Except MainErr Unit

/-- The supported output formats. -/
def supported_formats : List String := ["cityjson", "3dtiles"]

/-- The `__main__` block: read `argv[1]` and validate the output format,
read `argv[2]` and create the output directory, read `argv[3]` and
`argv[4]`, merge, then export by format. -/
def runMain (lib : Cjio) (argv : List String) (fs : FS) : RunOut :=
  match argv[1]? with
  | none => ⟨fs, [], .error .indexError⟩
  | some output_format =>
    if output_format ∈ supported_formats then
      match argv[2]? with
      | none => ⟨fs, [], .error .indexError⟩
      | some output_file =>
        let fs1 := fs.mkdirP (pathParent output_file)
        let tr1 := [Ev.mkdir (pathParent output_file)]
        match argv[3]? with
        | none => ⟨fs1, tr1, .error .indexError⟩
        | some cityjson_path =>
          match argv[4]? with
          | none => ⟨fs1, tr1, .error .indexError⟩
          | some ptr =>
            let m := merge lib cityjson_path ptr fs1
            match m.result with
            | .error e => ⟨m.fs, tr1 ++ m.trace, .error (.mergeFailed e)⟩
            | .ok cm =>
              if output_format = "cityjson" then
                let w := writeCityjson output_file cm m.fs
                ⟨w.1, tr1 ++ m.trace ++ w.2, .ok ()⟩
              else if output_format = "3dtiles" then
                let t := run3dtiles lib output_file cm m.fs
                ⟨t.fs, tr1 ++ m.trace ++ t.trace, .ok ()⟩
              else ⟨m.fs, tr1 ++ m.trace, .error .unreachableFormat⟩
    else ⟨fs, [], .error (.unsupportedFormat output_format)⟩


/-- The paths of the files written in a trace, in order. -/
def writePaths (tr : List Ev) : List String :=
  tr.filterMap (fun e => match e with | .write p _ => some p | _ => none)

/-- The contents of the files written in a trace, in order. -/
def writeContents (tr : List Ev) : List String :=
  tr.filterMap (fun e => match e with | .write _ c => some c | _ => none)

/-- A concrete instantiation of the external library, used to evaluate the
embedding at concrete inputs (the library is a black box; any instance will
do for the control-flow facts evaluated below). -/
def libId : Cjio :=
  ⟨fun cm _ => cm, fun _ j => j, fun _ j => j, fun _ => "glb"⟩

/-- Concrete file system: an empty base document and a pointer file whose
line 1 names a valid fragment and whose line 2 names a fragment with the
wrong type tag. -/
def fsBadLine2 : FS :=
  ⟨[("/base.city.json", "\x7b\x7d"),
    ("/ptr.txt", "/f1.jsonl\n/f2.jsonl\n"),
    ("/f1.jsonl", "\x7b\"type\":\"CityJSONFeature\"\x7d"),
    ("/f2.jsonl", "\x7b\"type\":\"Building\"\x7d")], []⟩

/-- Concrete file system: an empty base document and a pointer file listing
one valid fragment and one non-`.jsonl` path. -/
def fsGood : FS :=
  ⟨[("/base.city.json", "\x7b\x7d"),
    ("/ptr.txt", "/f1.jsonl\nnotes.txt\n"),
    ("/f1.jsonl", "\x7b\"type\":\"CityJSONFeature\"\x7d"),
    ("notes.txt", "x")], []⟩

/-- Concrete file system: a base document missing both collections and an
empty pointer file. -/
def fsEmptyPtr : FS :=
  ⟨[("/base.city.json", "\x7b\"k\":true\x7d"), ("/ptr.txt", "")], []⟩

/-- Whether the string `s` ends with the string `t`. -/
def strEndsWith (s t : String) : Bool :=
  s.data.drop (s.data.length - t.data.length) == t.data

/-- The property of the external library's merge primitive that the spec
guarantees: `add_cityjsonfeature` folds a fragment's contents into the
document's collections (object entries appended, vertices appended), so it
keeps the `CityObjects` and `vertices` keys present. -/
def preservesCollections (lib : Cjio) : Prop :=
  ∀ cm f k, (k = "CityObjects" ∨ k = "vertices") →
    hasKey cm k = true → hasKey (lib.addFeature cm f) k = true

theorem tenth_lt (m : Nat) (hm : 0 < m) : m / 10 < m :=
  Nat.div_lt_self hm (by omega)

theorem jsize_pos : ∀ j : Json, 0 < jsize j := by
  intro j
  cases j <;> simp [jsize]

theorem esize_nonneg_mem : ∀ (xs : List Json) (x : Json), x ∈ xs → jsize x < 1 + esize xs := by
  intro xs
  induction xs with
  | nil => intro x hx; cases hx
  | cons y ys ih =>
    intro x hx
    cases hx with
    | head => simp [esize]; omega
    | tail _ h =>
      have := ih x h
      simp [esize]; omega

theorem msize_nonneg_mem : ∀ (kvs : List (String × Json)) (kv : String × Json),
    kv ∈ kvs → jsize kv.2 < 1 + msize kvs := by
  intro kvs
  induction kvs with
  | nil => intro kv hkv; cases hkv
  | cons p ps ih =>
    intro kv hkv
    cases hkv with
    | head => simp [msize]; omega
    | tail _ h =>
      have := ih kv h
      simp [msize]; omega

/-- Structural induction principle for `Json`, with member hypotheses for the
nested lists, derived from the size measure. -/
theorem Json.strongInduction (P : Json → Prop)
    (hnull : P .jnull) (hbool : ∀ b, P (.jbool b)) (hnum : ∀ i, P (.jnum i))
    (hstr : ∀ s, P (.jstr s))
    (harr : ∀ xs, (∀ x ∈ xs, P x) → P (.jarr xs))
    (hobj : ∀ kvs, (∀ kv ∈ kvs, P kv.2) → P (.jobj kvs)) :
    ∀ j, P j := by
  have key : ∀ n, ∀ j, jsize j ≤ n → P j := by
    intro n
    induction n with
    | zero =>
      intro j h
      exact absurd h (by have := jsize_pos j; omega)
    | succ n ih =>
      intro j h
      cases j with
      | jnull => exact hnull
      | jbool b => exact hbool b
      | jnum i => exact hnum i
      | jstr s => exact hstr s
      | jarr xs =>
        refine harr xs (fun x hx => ih x ?_)
        have := esize_nonneg_mem xs x hx
        simp [jsize] at h
        omega
      | jobj kvs =>
        refine hobj kvs (fun kv hkv => ih kv.2 ?_)
        have := msize_nonneg_mem kvs kv hkv
        simp [jsize] at h
        omega
  exact fun j => key (jsize j) j le_rfl

theorem noDigitHead_nil : noDigitHead [] := by
  intro c h
  cases h

theorem noDigitHead_cons {c : Char} {cs : List Char} (h : c.isDigit = false) :
    noDigitHead (c :: cs) := by
  intro d hd
  simp [List.head?] at hd
  exact hd ▸ h

theorem strMkData (s : String) : String.mk s.data = s := by
  cases s
  rfl

theorem parseStrBody_quote (rest acc : List Char) :
    parseStrBody ('"' :: rest) acc = some (acc.reverse, rest) := by
  unfold parseStrBody
  simp

theorem parseStrBody_backslash (d : Char) (rest acc : List Char) :
    parseStrBody ('\\' :: d :: rest) acc = parseStrBody rest (d :: acc) := by
  unfold parseStrBody
  simp
  exact parseStrBody.eq_def rest (d :: acc)

theorem parseStrBody_other {c : Char} (h1 : c ≠ '"') (h2 : c ≠ '\\') (rest acc : List Char) :
    parseStrBody (c :: rest) acc = parseStrBody rest (c :: acc) := by
  unfold parseStrBody
  rw [if_neg h1, if_neg h2]
  exact parseStrBody.eq_def rest (c :: acc)

theorem parseStrBody_escape : ∀ (s acc rest : List Char),
    parseStrBody (escapeStr s ++ ('"' :: rest)) acc = some (acc.reverse ++ s, rest) := by
  intro s
  induction s with
  | nil =>
    intro acc rest
    rw [escapeStr, List.nil_append, parseStrBody_quote, List.append_nil]
  | cons c cs ih =>
    intro acc rest
    rw [escapeStr, escapeChar]
    by_cases hc : c = '"' ∨ c = '\\'
    · rw [if_pos hc]
      have hshape : (['\\', c] ++ escapeStr cs) ++ ('"' :: rest)
          = '\\' :: c :: (escapeStr cs ++ ('"' :: rest)) := by simp
      rw [hshape, parseStrBody_backslash, ih (c :: acc) rest]
      simp
    · rw [if_neg hc]
      push_neg at hc
      have hshape : ([c] ++ escapeStr cs) ++ ('"' :: rest)
          = c :: (escapeStr cs ++ ('"' :: rest)) := by simp
      rw [hshape, parseStrBody_other hc.1 hc.2, ih (c :: acc) rest]
      simp

theorem natChars_ne_nil (n : Nat) : natChars n ≠ [] := by
  rw [natChars]
  split <;> simp

theorem natChars_head : ∀ n : Nat, ∃ x ds, x < 10 ∧ natChars n = Char.ofNat (48 + x) :: ds := by
  intro n
  induction n using Nat.strong_induction_on with
  | _ n ih =>
    rw [natChars]
    split
    · next h => exact ⟨n, [], h, rfl⟩
    · next h =>
      obtain ⟨x, ds, hx, hds⟩ := ih (n / 10) (tenth_lt _ (by omega))
      exact ⟨x, ds ++ [Char.ofNat (48 + n % 10)], hx, by rw [hds]; simp⟩

theorem digitChar_isDigit (d : Nat) (h : d < 10) : (Char.ofNat (48 + d)).isDigit = true := by
  interval_cases d <;> decide

theorem digitChar_toNat (d : Nat) (h : d < 10) : (Char.ofNat (48 + d)).toNat = 48 + d := by
  interval_cases d <;> decide

theorem natChars_all_digit : ∀ n : Nat, ∀ c ∈ natChars n, c.isDigit = true := by
  intro n
  induction n using Nat.strong_induction_on with
  | _ n ih =>
    intro c hc
    rw [natChars] at hc
    split at hc
    · next h =>
      simp at hc
      exact hc ▸ digitChar_isDigit n h
    · next h =>
      simp at hc
      rcases hc with hc | hc
      · exact ih (n / 10) (tenth_lt _ (by omega)) c hc
      · exact hc ▸ digitChar_isDigit (n % 10) (Nat.mod_lt n (by omega))

theorem digitsToNat_aux : ∀ n : Nat, ∀ a : Nat,
    (natChars n).foldl (fun a c => a * 10 + (c.toNat - 48)) a
      = a * 10 ^ (natChars n).length + n := by
  intro n
  induction n using Nat.strong_induction_on with
  | _ n ih =>
    intro a
    rw [natChars]
    split
    · next h =>
      simp [List.foldl, digitChar_toNat n h]
    · next h =>
      rw [List.foldl_append, ih (n / 10) (tenth_lt _ (by omega)) a]
      simp only [List.foldl, digitChar_toNat (n % 10) (Nat.mod_lt n (by omega)),
        List.length_append, List.length_singleton]
      have hn : n / 10 * 10 + n % 10 = n := by omega
      have hp : (10 : Nat) ^ ((natChars (n / 10)).length + 1)
          = 10 ^ (natChars (n / 10)).length * 10 := pow_succ 10 _
      rw [hp]
      calc (a * 10 ^ (natChars (n / 10)).length + n / 10) * 10 + (48 + n % 10 - 48)
          = a * (10 ^ (natChars (n / 10)).length * 10) + (n / 10 * 10 + n % 10) := by
            have : 48 + n % 10 - 48 = n % 10 := by omega
            rw [this]; ring
        _ = a * (10 ^ (natChars (n / 10)).length * 10) + n := by rw [hn]

theorem digitsToNat_natChars (n : Nat) : digitsToNat (natChars n) = n := by
  rw [digitsToNat, digitsToNat_aux n 0]
  simp

theorem takeWhile_append_of_all {α : Type} (p : α → Bool) :
    ∀ (l r : List α), (∀ c ∈ l, p c = true) → (l ++ r).takeWhile p = l ++ r.takeWhile p := by
  intro l
  induction l with
  | nil => intro r _; simp
  | cons c cs ih =>
    intro r h
    have hc : p c = true := h c (by simp)
    simp only [List.cons_append, List.takeWhile_cons, hc, if_true]
    rw [ih r (fun x hx => h x (by simp [hx]))]

theorem dropWhile_append_of_all {α : Type} (p : α → Bool) :
    ∀ (l r : List α), (∀ c ∈ l, p c = true) → (l ++ r).dropWhile p = r.dropWhile p := by
  intro l
  induction l with
  | nil => intro r _; simp
  | cons c cs ih =>
    intro r h
    have hc : p c = true := h c (by simp)
    simp only [List.cons_append, List.dropWhile_cons, hc, if_true]
    exact ih r (fun x hx => h x (by simp [hx]))

theorem takeWhile_eq_nil_of_noDigitHead {cs : List Char} (h : noDigitHead cs) :
    cs.takeWhile Char.isDigit = [] := by
  cases cs with
  | nil => simp
  | cons c rest =>
    have : c.isDigit = false := h c rfl
    simp [List.takeWhile_cons, this]

theorem dropWhile_eq_self_of_noDigitHead {cs : List Char} (h : noDigitHead cs) :
    cs.dropWhile Char.isDigit = cs := by
  cases cs with
  | nil => simp
  | cons c rest =>
    have : c.isDigit = false := h c rfl
    simp [List.dropWhile_cons, this]

theorem parseNat_natChars (n : Nat) (rest : List Char) (h : noDigitHead rest) :
    parseNat (natChars n ++ rest) = some (n, rest) := by
  have hall : ∀ c ∈ natChars n, Char.isDigit c = true := natChars_all_digit n
  have htw : (natChars n ++ rest).takeWhile Char.isDigit = natChars n := by
    rw [takeWhile_append_of_all _ _ _ hall, takeWhile_eq_nil_of_noDigitHead h, List.append_nil]
  have hdw : (natChars n ++ rest).dropWhile Char.isDigit = rest := by
    rw [dropWhile_append_of_all _ _ _ hall, dropWhile_eq_self_of_noDigitHead h]
  obtain ⟨d, ds, hds⟩ : ∃ d ds, natChars n = d :: ds := by
    cases hn : natChars n with
    | nil => exact absurd hn (natChars_ne_nil n)
    | cons d ds => exact ⟨d, ds, rfl⟩
  rw [parseNat, htw, hdw, hds]
  simp only [Option.some.injEq, Prod.mk.injEq, and_true]
  rw [← hds, digitsToNat_natChars]

theorem parseVal_n (fuel : Nat) (cs : List Char) :
    parseVal (fuel + 1) ('n' :: cs)
      = (expectChars ['u', 'l', 'l'] cs).map (fun r => (Json.jnull, r)) := by
  unfold parseVal
  simp

theorem parseVal_t (fuel : Nat) (cs : List Char) :
    parseVal (fuel + 1) ('t' :: cs)
      = (expectChars ['r', 'u', 'e'] cs).map (fun r => (Json.jbool true, r)) := by
  unfold parseVal
  simp

theorem parseVal_f (fuel : Nat) (cs : List Char) :
    parseVal (fuel + 1) ('f' :: cs)
      = (expectChars ['a', 'l', 's', 'e'] cs).map (fun r => (Json.jbool false, r)) := by
  unfold parseVal
  simp

theorem parseVal_quote (fuel : Nat) (cs : List Char) :
    parseVal (fuel + 1) ('"' :: cs)
      = (parseStrBody cs []).map (fun p => (Json.jstr (String.mk p.1), p.2)) := by
  unfold parseVal
  simp

theorem parseVal_lbracket_rb (fuel : Nat) (cs2 : List Char) :
    parseVal (fuel + 1) ('[' :: ']' :: cs2) = some (Json.jarr [], cs2) := by
  unfold parseVal
  simp

theorem parseVal_lbracket_cons (fuel : Nat) (d : Char) (cs2 : List Char) (hd : d ≠ ']') :
    parseVal (fuel + 1) ('[' :: d :: cs2)
      = (parseElems fuel (d :: cs2)).map (fun p => (Json.jarr p.1, p.2)) := by
  unfold parseVal
  simp [hd]

theorem parseVal_lbrace_rb (fuel : Nat) (cs2 : List Char) :
    parseVal (fuel + 1) (lbraceC :: rbraceC :: cs2) = some (Json.jobj [], cs2) := by
  unfold parseVal
  simp [lbraceC, rbraceC]

theorem parseVal_lbrace_cons (fuel : Nat) (d : Char) (cs2 : List Char) (hd : d ≠ rbraceC) :
    parseVal (fuel + 1) (lbraceC :: d :: cs2)
      = (parseMembers fuel (d :: cs2)).map (fun p => (Json.jobj p.1, p.2)) := by
  unfold parseVal
  simp [lbraceC, rbraceC] at hd ⊢
  simp [hd]

theorem parseVal_minus (fuel : Nat) (cs : List Char) :
    parseVal (fuel + 1) ('-' :: cs)
      = (parseNat cs).map (fun p => (Json.jnum (-(p.1 : Int)), p.2)) := by
  have h : ('-' : Char) ≠ lbraceC := by decide
  unfold parseVal
  simp [h]

theorem parseVal_digitHead (x : Nat) (hx : x < 10) (fuel : Nat) (cs : List Char) :
    parseVal (fuel + 1) (Char.ofNat (48 + x) :: cs)
      = (parseNat (Char.ofNat (48 + x) :: cs)).map (fun p => (Json.jnum (p.1 : Int), p.2)) := by
  interval_cases x <;> (unfold parseVal; simp [lbraceC])

theorem parseElems_step {fuel : Nat} {cs : List Char} {v : Json} {rest2 : List Char}
    (hv : parseVal fuel cs = some (v, ',' :: rest2)) :
    parseElems (fuel + 1) cs = (parseElems fuel rest2).map (fun p => (v :: p.1, p.2)) := by
  unfold parseElems
  simp [hv]
  exact congrArg _ (parseElems.eq_def fuel rest2)

theorem parseElems_last {fuel : Nat} {cs : List Char} {v : Json} {rest2 : List Char}
    (hv : parseVal fuel cs = some (v, ']' :: rest2)) :
    parseElems (fuel + 1) cs = some ([v], rest2) := by
  unfold parseElems
  simp [hv]

theorem parseMembers_step {fuel : Nat} {cs2 : List Char} {k : List Char}
    {rest2 : List Char} {v : Json} {rest4 : List Char}
    (hs : parseStrBody cs2 [] = some (k, ':' :: rest2))
    (hv : parseVal fuel rest2 = some (v, ',' :: rest4)) :
    parseMembers (fuel + 1) ('"' :: cs2)
      = (parseMembers fuel rest4).map (fun p => ((String.mk k, v) :: p.1, p.2)) := by
  unfold parseMembers
  simp [hs, hv]
  exact congrArg _ (parseMembers.eq_def fuel rest4)

theorem parseMembers_last {fuel : Nat} {cs2 : List Char} {k : List Char}
    {rest2 : List Char} {v : Json} {rest4 : List Char}
    (hs : parseStrBody cs2 [] = some (k, ':' :: rest2))
    (hv : parseVal fuel rest2 = some (v, rbraceC :: rest4)) :
    parseMembers (fuel + 1) ('"' :: cs2) = some ([(String.mk k, v)], rest4) := by
  unfold parseMembers
  simp [hs, hv, rbraceC]

theorem dumps_head (j : Json) :
    ∃ c t, dumps j = c :: t ∧ c ≠ ']' ∧ c ≠ rbraceC ∧ c ≠ ',' := by
  cases j with
  | jnull => exact ⟨'n', ['u', 'l', 'l'], by simp [dumps], by decide, by decide, by decide⟩
  | jbool b =>
    cases b with
    | true => exact ⟨'t', ['r', 'u', 'e'], by simp [dumps], by decide, by decide, by decide⟩
    | false =>
      exact ⟨'f', ['a', 'l', 's', 'e'], by simp [dumps], by decide, by decide, by decide⟩
  | jnum i =>
    cases i with
    | ofNat n =>
      obtain ⟨x, ds, hx, hds⟩ := natChars_head n
      refine ⟨Char.ofNat (48 + x), ds, by simp [dumps, intChars, hds], ?_, ?_, ?_⟩ <;>
        (interval_cases x <;> decide)
    | negSucc n =>
      exact ⟨'-', natChars (n + 1), by simp [dumps, intChars], by decide, by decide, by decide⟩
  | jstr s =>
    exact ⟨'"', escapeStr s.data ++ ['"'], by simp [dumps, dumpsStr], by decide, by decide,
      by decide⟩
  | jarr xs =>
    exact ⟨'[', dumpsElems xs ++ [']'], by simp [dumps], by decide, by decide, by decide⟩
  | jobj kvs =>
    exact ⟨lbraceC, dumpsMembers kvs ++ [rbraceC], by simp [dumps], by decide, by decide,
      by decide⟩

theorem dumpsElems_head (x : Json) (xs : List Json) :
    ∃ c t, dumpsElems (x :: xs) = c :: t ∧ c ≠ ']' := by
  obtain ⟨c, t, hct, h1, _, _⟩ := dumps_head x
  cases xs with
  | nil => exact ⟨c, t, by simp [dumpsElems, hct], h1⟩
  | cons y ys =>
    exact ⟨c, t ++ ',' :: dumpsElems (y :: ys), by simp [dumpsElems, hct], h1⟩

theorem dumpsMembers_head (kv : String × Json) (ms : List (String × Json)) :
    ∃ t, dumpsMembers (kv :: ms) = '"' :: t := by
  obtain ⟨k, v⟩ := kv
  cases ms with
  | nil =>
    exact ⟨escapeStr k.data ++ '"' :: ':' :: dumps v, by simp [dumpsMembers, dumpsStr]⟩
  | cons m2 ms2 =>
    exact ⟨escapeStr k.data ++ '"' :: ':' :: (dumps v ++ ',' :: dumpsMembers (m2 :: ms2)),
      by simp [dumpsMembers, dumpsStr]⟩

/-- The parser is a left inverse of `dumps`, at every sufficient fuel, on a
value followed by any remainder that cannot extend a number literal. -/
theorem parse_dumps_all : ∀ fuel : Nat,
    (∀ j rest, jsize j ≤ fuel → noDigitHead rest →
      parseVal fuel (dumps j ++ rest) = some (j, rest)) ∧
    (∀ l rest, l ≠ [] → esize l ≤ fuel → noDigitHead rest →
      parseElems fuel (dumpsElems l ++ (']' :: rest)) = some (l, rest)) ∧
    (∀ m rest, m ≠ [] → msize m ≤ fuel → noDigitHead rest →
      parseMembers fuel (dumpsMembers m ++ (rbraceC :: rest)) = some (m, rest)) := by
  intro fuel
  induction fuel with
  | zero =>
    refine ⟨?_, ?_, ?_⟩
    · intro j rest hs _
      exact absurd hs (by have := jsize_pos j; omega)
    · intro l rest hne hs _
      cases l with
      | nil => exact absurd rfl hne
      | cons x xs => exact absurd hs (by simp only [esize]; omega)
    · intro m rest hne hs _
      cases m with
      | nil => exact absurd rfl hne
      | cons kv ms => exact absurd hs (by simp only [msize]; omega)
  | succ fuel ih =>
    obtain ⟨ihV, ihE, ihM⟩ := ih
    refine ⟨?_, ?_, ?_⟩
    · intro j rest hs hrest
      cases j with
      | jnull =>
        have hshape : dumps Json.jnull ++ rest = 'n' :: 'u' :: 'l' :: 'l' :: rest := by
          simp [dumps]
        rw [hshape, parseVal_n]
        simp [expectChars]
      | jbool b =>
        cases b with
        | true =>
          have hshape : dumps (Json.jbool true) ++ rest = 't' :: 'r' :: 'u' :: 'e' :: rest := by
            simp [dumps]
          rw [hshape, parseVal_t]
          simp [expectChars]
        | false =>
          have hshape : dumps (Json.jbool false) ++ rest
              = 'f' :: 'a' :: 'l' :: 's' :: 'e' :: rest := by
            simp [dumps]
          rw [hshape, parseVal_f]
          simp [expectChars]
      | jnum i =>
        cases i with
        | ofNat n =>
          obtain ⟨x, ds, hx, hds⟩ := natChars_head n
          have hshape : dumps (Json.jnum (Int.ofNat n)) ++ rest
              = Char.ofNat (48 + x) :: (ds ++ rest) := by
            simp [dumps, intChars, hds]
          rw [hshape, parseVal_digitHead x hx]
          have hback : Char.ofNat (48 + x) :: (ds ++ rest) = natChars n ++ rest := by
            rw [hds]; simp
          rw [hback, parseNat_natChars n rest hrest]
          rfl
        | negSucc n =>
          have hshape : dumps (Json.jnum (Int.negSucc n)) ++ rest
              = '-' :: (natChars (n + 1) ++ rest) := by
            simp [dumps, intChars]
          rw [hshape, parseVal_minus, parseNat_natChars (n + 1) rest hrest]
          simp [Int.negSucc_eq]
      | jstr s =>
        have hshape : dumps (Json.jstr s) ++ rest
            = '"' :: (escapeStr s.data ++ ('"' :: rest)) := by
          simp [dumps, dumpsStr]
        rw [hshape, parseVal_quote]
        have h := parseStrBody_escape s.data [] rest
        simp only [List.reverse_nil, List.nil_append] at h
        rw [h]
        simp [strMkData]
      | jarr xs =>
        cases xs with
        | nil =>
          have hshape : dumps (Json.jarr []) ++ rest = '[' :: ']' :: rest := by
            simp [dumps, dumpsElems]
          rw [hshape, parseVal_lbracket_rb]
        | cons x xs2 =>
          obtain ⟨c, t, hct, hcne⟩ := dumpsElems_head x xs2
          have hshape : dumps (Json.jarr (x :: xs2)) ++ rest
              = '[' :: c :: (t ++ (']' :: rest)) := by
            simp [dumps, hct]
          rw [hshape, parseVal_lbracket_cons fuel c _ hcne]
          have hback : c :: (t ++ (']' :: rest)) = dumpsElems (x :: xs2) ++ (']' :: rest) := by
            rw [hct]; simp
          rw [hback, ihE (x :: xs2) rest (by simp) (by simp [jsize] at hs; omega) hrest]
          rfl
      | jobj kvs =>
        cases kvs with
        | nil =>
          have hshape : dumps (Json.jobj []) ++ rest = lbraceC :: rbraceC :: rest := by
            simp [dumps, dumpsMembers]
          rw [hshape, parseVal_lbrace_rb]
        | cons kv ms =>
          obtain ⟨t, ht⟩ := dumpsMembers_head kv ms
          have hshape : dumps (Json.jobj (kv :: ms)) ++ rest
              = lbraceC :: '"' :: (t ++ (rbraceC :: rest)) := by
            simp [dumps, ht]
          rw [hshape, parseVal_lbrace_cons fuel '"' _ (by decide)]
          have hback : '"' :: (t ++ (rbraceC :: rest))
              = dumpsMembers (kv :: ms) ++ (rbraceC :: rest) := by
            rw [ht]; simp
          rw [hback, ihM (kv :: ms) rest (by simp) (by simp [jsize] at hs; omega) hrest]
          rfl
    · intro l rest hne hs hrest
      cases l with
      | nil => exact absurd rfl hne
      | cons x xs =>
        have hx : jsize x ≤ fuel := by simp [esize] at hs; omega
        cases xs with
        | nil =>
          have hshape : dumpsElems [x] ++ (']' :: rest) = dumps x ++ (']' :: rest) := by
            simp [dumpsElems]
          have hv : parseVal fuel (dumps x ++ (']' :: rest)) = some (x, ']' :: rest) :=
            ihV x (']' :: rest) hx (noDigitHead_cons (by decide))
          rw [hshape]
          exact parseElems_last hv
        | cons y ys =>
          have hshape : dumpsElems (x :: y :: ys) ++ (']' :: rest)
              = dumps x ++ (',' :: (dumpsElems (y :: ys) ++ (']' :: rest))) := by
            simp [dumpsElems]
          have hv : parseVal fuel (dumps x ++ (',' :: (dumpsElems (y :: ys) ++ (']' :: rest))))
              = some (x, ',' :: (dumpsElems (y :: ys) ++ (']' :: rest))) :=
            ihV x _ hx (noDigitHead_cons (by decide))
          rw [hshape, parseElems_step hv]
          rw [ihE (y :: ys) rest (by simp)
            (by have := jsize_pos x; simp [esize] at hs ⊢; omega) hrest]
          rfl
    · intro m rest hne hs hrest
      cases m with
      | nil => exact absurd rfl hne
      | cons kv ms =>
        obtain ⟨k, v⟩ := kv
        have hv : jsize v ≤ fuel := by simp [msize] at hs; omega
        cases ms with
        | nil =>
          have hshape : dumpsMembers [(k, v)] ++ (rbraceC :: rest)
              = '"' :: (escapeStr k.data
                  ++ ('"' :: (':' :: (dumps v ++ (rbraceC :: rest))))) := by
            simp [dumpsMembers, dumpsStr]
          have hstr : parseStrBody (escapeStr k.data
                  ++ ('"' :: (':' :: (dumps v ++ (rbraceC :: rest))))) []
              = some (k.data, ':' :: (dumps v ++ (rbraceC :: rest))) := by
            have h := parseStrBody_escape k.data [] (':' :: (dumps v ++ (rbraceC :: rest)))
            simpa using h
          have hval : parseVal fuel (dumps v ++ (rbraceC :: rest)) = some (v, rbraceC :: rest) :=
            ihV v _ hv (noDigitHead_cons (by decide))
          rw [hshape, parseMembers_last hstr hval]
        | cons m2 ms2 =>
          have hshape : dumpsMembers ((k, v) :: m2 :: ms2) ++ (rbraceC :: rest)
              = '"' :: (escapeStr k.data ++ ('"' :: (':' :: (dumps v
                  ++ (',' :: (dumpsMembers (m2 :: ms2) ++ (rbraceC :: rest))))))) := by
            simp [dumpsMembers, dumpsStr]
          have hstr : parseStrBody (escapeStr k.data ++ ('"' :: (':' :: (dumps v
                  ++ (',' :: (dumpsMembers (m2 :: ms2) ++ (rbraceC :: rest))))))) []
              = some (k.data, ':' :: (dumps v
                  ++ (',' :: (dumpsMembers (m2 :: ms2) ++ (rbraceC :: rest))))) := by
            have h := parseStrBody_escape k.data []
              (':' :: (dumps v ++ (',' :: (dumpsMembers (m2 :: ms2) ++ (rbraceC :: rest)))))
            simpa using h
          have hval : parseVal fuel (dumps v
                  ++ (',' :: (dumpsMembers (m2 :: ms2) ++ (rbraceC :: rest))))
              = some (v, ',' :: (dumpsMembers (m2 :: ms2) ++ (rbraceC :: rest))) :=
            ihV v _ hv (noDigitHead_cons (by decide))
          rw [hshape, parseMembers_step hstr hval]
          rw [ihM (m2 :: ms2) rest (by simp)
            (by have := jsize_pos v; simp [msize] at hs ⊢; omega) hrest]
          simp [strMkData]

theorem esize_le_dumpsElems : ∀ xs : List Json,
    (∀ x ∈ xs, jsize x ≤ (dumps x).length) → esize xs ≤ (dumpsElems xs).length + 1 := by
  intro xs
  induction xs with
  | nil => intro _; simp [esize, dumpsElems]
  | cons x ys ih =>
    intro h
    have h1 := h x (by simp)
    cases ys with
    | nil =>
      simp only [esize, dumpsElems]
      omega
    | cons y ys2 =>
      have h2 := ih (fun z hz => h z (by simp at hz ⊢; tauto))
      simp only [esize, dumpsElems, List.length_append, List.length_cons] at h2 ⊢
      omega

theorem msize_le_dumpsMembers : ∀ ms : List (String × Json),
    (∀ kv ∈ ms, jsize kv.2 ≤ (dumps kv.2).length) → msize ms ≤ (dumpsMembers ms).length + 1 := by
  intro ms
  induction ms with
  | nil => intro _; simp [msize, dumpsMembers]
  | cons kv ms2 ih =>
    intro h
    obtain ⟨k, v⟩ := kv
    have h1 := h (k, v) (by simp)
    cases ms2 with
    | nil =>
      simp only [msize, dumpsMembers, dumpsStr, List.length_append, List.length_cons] at h1 ⊢
      omega
    | cons m2 ms3 =>
      have h2 := ih (fun z hz => h z (by simp at hz ⊢; tauto))
      simp only [msize, dumpsMembers, dumpsStr, List.length_append, List.length_cons] at h1 h2 ⊢
      omega

theorem jsize_le_dumps_length (j : Json) : jsize j ≤ (dumps j).length := by
  induction j using Json.strongInduction with
  | hnull => simp [jsize, dumps]
  | hbool b => cases b <;> simp [jsize, dumps]
  | hnum i =>
    cases i with
    | ofNat n =>
      have hne := natChars_ne_nil n
      have hpos : 0 < (natChars n).length := List.length_pos.mpr hne
      simp only [jsize, dumps, intChars]
      omega
    | negSucc n =>
      simp only [jsize, dumps, intChars, List.length_cons]
      omega
  | hstr s =>
    simp only [jsize, dumps, dumpsStr, List.length_cons]
    omega
  | harr xs ih =>
    have h := esize_le_dumpsElems xs ih
    simp only [jsize, dumps, List.length_cons, List.length_append, List.length_singleton] at h ⊢
    omega
  | hobj kvs ih =>
    have h := msize_le_dumpsMembers kvs ih
    simp only [jsize, dumps, List.length_cons, List.length_append, List.length_singleton] at h ⊢
    omega

/-- Round trip at the list level: parsing the compact serialization of any
document returns exactly that document. -/
theorem jsonParseL_dumps (j : Json) : jsonParseL (dumps j) = some j := by
  have hfuel : jsize j ≤ (dumps j).length + 1 :=
    le_trans (jsize_le_dumps_length j) (Nat.le_succ _)
  have h := (parse_dumps_all ((dumps j).length + 1)).1 j [] hfuel noDigitHead_nil
  rw [List.append_nil] at h
  unfold jsonParseL
  rw [h]

/-- Round trip at the string level. -/
theorem jsonParse_dumps (j : Json) : jsonParse (String.mk (dumps j)) = some j := by
  rw [jsonParse]
  exact jsonParseL_dumps j


theorem natChars_all_notWs : ∀ n : Nat, ∀ c ∈ natChars n, c.isWhitespace = false := by
  have hd : ∀ d : Nat, d < 10 → (Char.ofNat (48 + d)).isWhitespace = false := by decide
  intro n
  induction n using Nat.strong_induction_on with
  | _ n ih =>
    intro c hc
    rw [natChars] at hc
    split at hc
    · next h =>
      simp at hc
      exact hc ▸ hd n h
    · next h =>
      simp at hc
      rcases hc with hc | hc
      · exact ih (n / 10) (tenth_lt _ (by omega)) c hc
      · exact hc ▸ hd (n % 10) (Nat.mod_lt n (by omega))

theorem escapeStr_all_notWs : ∀ l : List Char,
    (∀ c ∈ l, c.isWhitespace = false) → ∀ c ∈ escapeStr l, c.isWhitespace = false := by
  intro l
  induction l with
  | nil => intro _ c hc; simp [escapeStr] at hc
  | cons d ds ih =>
    intro h c hc
    rw [escapeStr, escapeChar] at hc
    split at hc
    · simp at hc
      rcases hc with hc | hc | hc
      · exact hc ▸ (by decide : ('\\' : Char).isWhitespace = false)
      · exact hc ▸ h d (by simp)
      · exact ih (fun z hz => h z (by simp [hz])) c hc
    · simp at hc
      rcases hc with hc | hc
      · exact hc ▸ h d (by simp)
      · exact ih (fun z hz => h z (by simp [hz])) c hc

theorem strAll_notWs {s : String} (h : s.data.all (fun c => !c.isWhitespace) = true) :
    ∀ c ∈ s.data, c.isWhitespace = false := by
  intro c hc
  have := List.all_eq_true.mp h c hc
  simpa using this

/-- Whitespace-freeness of a serialized string literal. -/
theorem dumpsStr_notWs (k : String) (hk : k.data.all (fun c => !c.isWhitespace) = true) :
    ∀ c ∈ dumpsStr k, c.isWhitespace = false := by
  rw [dumpsStr]
  refine List.forall_mem_cons.mpr ⟨by decide, ?_⟩
  refine List.forall_mem_append.mpr ⟨escapeStr_all_notWs k.data (strAll_notWs hk), ?_⟩
  exact List.forall_mem_singleton.mpr (by decide)

/-- Whitespace-freeness of a serialized element list, given it for each
element. -/
theorem dumpsElems_notWs : ∀ xs : List Json,
    (∀ x ∈ xs, noWsJson x = true → ∀ c ∈ dumps x, c.isWhitespace = false) →
    noWsElems xs = true → ∀ c ∈ dumpsElems xs, c.isWhitespace = false := by
  intro xs
  induction xs with
  | nil =>
    intro _ _ c hc
    simp [dumpsElems] at hc
  | cons x ys ih =>
    intro hmem hnw
    have hx : noWsJson x = true ∧ noWsElems ys = true := by
      simpa [noWsElems, Bool.and_eq_true] using hnw
    cases ys with
    | nil =>
      rw [dumpsElems]
      exact hmem x (by simp) hx.1
    | cons y ys2 =>
      rw [dumpsElems]
      refine List.forall_mem_append.mpr ⟨hmem x (by simp) hx.1, ?_⟩
      refine List.forall_mem_cons.mpr ⟨by decide, ?_⟩
      exact ih (fun z hz => hmem z (by simp at hz ⊢; tauto)) hx.2

/-- Whitespace-freeness of a serialized member list, given it for each
member value. -/
theorem dumpsMembers_notWs : ∀ ms : List (String × Json),
    (∀ kv ∈ ms, noWsJson kv.2 = true → ∀ c ∈ dumps kv.2, c.isWhitespace = false) →
    noWsMembers ms = true → ∀ c ∈ dumpsMembers ms, c.isWhitespace = false := by
  intro ms
  induction ms with
  | nil =>
    intro _ _ c hc
    simp [dumpsMembers] at hc
  | cons kv ms2 ih =>
    intro hmem hnw
    obtain ⟨k, v⟩ := kv
    have hx : (k.data.all (fun c => !c.isWhitespace) = true ∧ noWsJson v = true)
        ∧ noWsMembers ms2 = true := by
      simpa [noWsMembers, Bool.and_eq_true, and_assoc] using hnw
    have hA := dumpsStr_notWs k hx.1.1
    have hB : ∀ c ∈ dumps v, c.isWhitespace = false := hmem (k, v) (by simp) hx.1.2
    cases ms2 with
    | nil =>
      rw [dumpsMembers]
      refine List.forall_mem_append.mpr ⟨hA, ?_⟩
      exact List.forall_mem_cons.mpr ⟨by decide, hB⟩
    | cons m2 ms3 =>
      have hC : ∀ c ∈ dumpsMembers (m2 :: ms3), c.isWhitespace = false :=
        ih (fun z hz => hmem z (by simp at hz ⊢; tauto)) hx.2
      rw [dumpsMembers]
      simp only [List.append_assoc, List.cons_append]
      refine List.forall_mem_append.mpr ⟨hA, ?_⟩
      refine List.forall_mem_cons.mpr ⟨by decide, ?_⟩
      refine List.forall_mem_append.mpr ⟨hB, ?_⟩
      exact List.forall_mem_cons.mpr ⟨by decide, hC⟩

/-- The compact encoding introduces no whitespace: if the document's strings
are whitespace-free then so is its entire serialization. -/
theorem dumps_noWs (j : Json) (hnw : noWsJson j = true) :
    ∀ c ∈ dumps j, c.isWhitespace = false := by
  induction j using Json.strongInduction with
  | hnull =>
    intro c hc
    fin_cases hc <;> decide
  | hbool b =>
    intro c hc
    cases b <;> (rw [dumps] at hc; fin_cases hc <;> decide)
  | hnum i =>
    intro c hc
    cases i with
    | ofNat n =>
      rw [dumps, intChars] at hc
      exact natChars_all_notWs n c hc
    | negSucc n =>
      rw [dumps, intChars] at hc
      rcases List.mem_cons.mp hc with hc | hc
      · exact hc ▸ (by decide : ('-' : Char).isWhitespace = false)
      · exact natChars_all_notWs (n + 1) c hc
  | hstr s =>
    rw [dumps]
    exact dumpsStr_notWs s (by simpa [noWsJson] using hnw)
  | harr xs ih =>
    rw [dumps]
    refine List.forall_mem_cons.mpr ⟨by decide, ?_⟩
    refine List.forall_mem_append.mpr ⟨?_, ?_⟩
    · exact dumpsElems_notWs xs ih (by simpa [noWsJson] using hnw)
    · exact List.forall_mem_singleton.mpr (by decide)
  | hobj kvs ih =>
    rw [dumps]
    refine List.forall_mem_cons.mpr ⟨by decide, ?_⟩
    refine List.forall_mem_append.mpr ⟨?_, ?_⟩
    · exact dumpsMembers_notWs kvs ih (by simpa [noWsJson] using hnw)
    · exact List.forall_mem_singleton.mpr (by decide)

theorem FS.read_write_self (fs : FS) (p c : String) : (fs.write p c).read p = some c := by
  simp [FS.read, FS.write, List.lookup]

theorem lookup_filter_ne (p : String) :
    ∀ l : List (String × String), (l.filter (fun e => e.1 != p)).lookup p = none := by
  intro l
  induction l with
  | nil => simp
  | cons e l ih =>
    obtain ⟨a, b⟩ := e
    by_cases h : a = p
    · subst h
      simpa using ih
    · have hne : (a != p) = true := by simpa using h
      simp only [List.filter_cons, hne, if_true]
      have hpa : (p == a) = false := by simpa using Ne.symm h
      simp [List.lookup, hpa, ih]

theorem FS.read_unlinkF_self (fs : FS) (p : String) : (fs.unlinkF p).read p = none := by
  unfold FS.read FS.unlinkF
  exact lookup_filter_ne p fs.files

theorem lookup_append_left {β : Type} (k : String) (l1 l2 : List (String × β))
    (h : (l1.lookup k).isSome = true) : (l1 ++ l2).lookup k = l1.lookup k := by
  induction l1 with
  | nil => simp [List.lookup] at h
  | cons e l ih =>
    obtain ⟨a, b⟩ := e
    by_cases hk : k = a
    · subst hk
      simp [List.lookup]
    · have hka : (k == a) = false := by simpa using hk
      simp only [List.lookup, List.cons_append, hka] at h ⊢
      exact ih h

theorem lookup_append_right {β : Type} (k : String) (l1 l2 : List (String × β))
    (h : l1.lookup k = none) : (l1 ++ l2).lookup k = l2.lookup k := by
  induction l1 with
  | nil => simp
  | cons e l ih =>
    obtain ⟨a, b⟩ := e
    by_cases hk : k = a
    · subst hk
      simp [List.lookup] at h
    · have hka : (k == a) = false := by simpa using hk
      simp only [List.lookup, List.cons_append, hka] at h ⊢
      exact ih h

theorem ensureKey_hasKey_self (kvs : List (String × Json)) (k : String) (d : Json) :
    hasKey (ensureKey (Json.jobj kvs) k d) k = true := by
  unfold ensureKey
  by_cases h : (kvs.lookup k).isSome
  · simp [h, hasKey]
  · simp only [h, if_false, Bool.false_eq_true, hasKey]
    rw [lookup_append_right k kvs _ (by cases hx : kvs.lookup k with
      | none => rfl
      | some v => simp [hx] at h)]
    simp [List.lookup]

theorem ensureKey_hasKey_mono (j : Json) (k k2 : String) (d : Json)
    (h : hasKey j k = true) : hasKey (ensureKey j k2 d) k = true := by
  cases j with
  | jobj kvs =>
    unfold ensureKey
    by_cases h2 : (kvs.lookup k2).isSome
    · simpa [h2] using h
    · simp only [h2, if_false, Bool.false_eq_true, hasKey] at h ⊢
      rw [lookup_append_left k kvs _ h]
      exact h
  | jnull => simp [hasKey] at h
  | jbool b => simp [hasKey] at h
  | jnum i => simp [hasKey] at h
  | jstr s => simp [hasKey] at h
  | jarr xs => simp [hasKey] at h

theorem ensureKey_getKey_self (kvs : List (String × Json)) (k : String) (d : Json)
    (h : hasKey (Json.jobj kvs) k = false) :
    getKey (ensureKey (Json.jobj kvs) k d) k = some d := by
  have hn : kvs.lookup k = none := by
    cases hx : kvs.lookup k with
    | none => rfl
    | some v => simp [hasKey, hx] at h
  unfold ensureKey
  simp only [hn, Option.isSome_none, Bool.false_eq_true, if_false, getKey]
  rw [lookup_append_right k kvs _ hn]
  simp [List.lookup]

theorem ensureKey_getKey_other (j : Json) (k k2 : String) (d : Json) (hne : k ≠ k2) :
    getKey (ensureKey j k2 d) k = getKey j k := by
  cases j with
  | jobj kvs =>
    unfold ensureKey
    by_cases h2 : (kvs.lookup k2).isSome
    · simp [h2]
    · simp only [h2, if_false, Bool.false_eq_true, getKey]
      cases hx : kvs.lookup k with
      | some v => rw [lookup_append_left k kvs _ (by simp [hx])] ; simp [hx]
      | none =>
        rw [lookup_append_right k kvs _ hx]
        have hka : (k == k2) = false := by simpa using hne
        simp [List.lookup, hka, hx]
  | jnull => rfl
  | jbool b => rfl
  | jnum i => rfl
  | jstr s => rfl
  | jarr xs => rfl

theorem ensureKey_id (j : Json) (k : String) (d : Json) (h : hasKey j k = true) :
    ensureKey j k d = j := by
  cases j with
  | jobj kvs =>
    unfold ensureKey
    simp only [hasKey] at h
    simp [h]
  | jnull => simp [hasKey] at h
  | jbool b => simp [hasKey] at h
  | jnum i => simp [hasKey] at h
  | jstr s => simp [hasKey] at h
  | jarr xs => simp [hasKey] at h

theorem exceptMap_ok {α β γ : Type} {f : α → β} {x : Except γ α} {y : β} :
    x.map f = .ok y ↔ ∃ a, x = .ok a ∧ f a = y := by
  cases x <;> simp [Except.map]

theorem exceptMap_error {α β γ : Type} {f : α → β} {x : Except γ α} {e : γ} :
    x.map f = .error e ↔ x = .error e := by
  cases x <;> simp [Except.map]

theorem processLines_err_line (lib : Cjio) (fs : FS) (lc : Nat) :
    ∀ (lines : List String) (cm : Json) (n : Nat),
      processLines lib fs lc lines cm = .error (.notCityJSONFeature n) → n = lc := by
  intro lines
  induction lines with
  | nil =>
    intro cm n h
    simp [processLines] at h
  | cons p rest ih =>
    intro cm n h
    simp only [processLines] at h
    split at h
    · split at h
      · simp at h
      · split at h
        · simp at h
        · split at h
          · rw [exceptMap_error] at h
            exact ih _ n h
          · simp only [Except.error.injEq, MergeErr.notCityJSONFeature.injEq] at h
            exact h.symm
    · rw [exceptMap_error] at h
      exact ih _ n h

theorem processLines_ok_evs (lib : Cjio) (fs : FS) (lc : Nat) :
    ∀ (lines : List String) (cm cm2 : Json) (evs : List Ev),
      processLines lib fs lc lines cm = .ok (cm2, evs) →
      ∀ e ∈ evs, (∃ q, e = Ev.readF q) ∨ (∃ m, e = Ev.print m) := by
  intro lines
  induction lines with
  | nil =>
    intro cm cm2 evs h
    simp [processLines] at h
    simp [h.2]
  | cons p rest ih =>
    intro cm cm2 evs h
    simp only [processLines] at h
    split at h
    · split at h
      · simp at h
      · split at h
        · simp at h
        · split at h
          · rw [exceptMap_ok] at h
            obtain ⟨⟨cmr, evr⟩, heq, hf⟩ := h
            simp only [Prod.mk.injEq] at hf
            intro e he
            rw [← hf.2] at he
            rcases List.mem_cons.mp he with he | he
            · exact Or.inl ⟨stripNl p, he⟩
            · exact ih _ _ _ heq e he
          · simp at h
    · rw [exceptMap_ok] at h
      obtain ⟨⟨cmr, evr⟩, heq, hf⟩ := h
      simp only [Prod.mk.injEq] at hf
      intro e he
      rw [← hf.2] at he
      rcases List.mem_cons.mp he with he | he
      · exact Or.inr ⟨skipMsg (stripNl p), he⟩
      · exact ih _ _ _ heq e he

theorem processLines_reads (lib : Cjio) (fs : FS) (lc : Nat) :
    ∀ (lines : List String) (cm cm2 : Json) (evs : List Ev),
      processLines lib fs lc lines cm = .ok (cm2, evs) →
      ∀ p ∈ lines, pathSuffix (stripNl p) = ".jsonl" → Ev.readF (stripNl p) ∈ evs := by
  intro lines
  induction lines with
  | nil =>
    intro cm cm2 evs _ p hp
    cases hp
  | cons q rest ih =>
    intro cm cm2 evs h p hp hsuf
    simp only [processLines] at h
    split at h
    · split at h
      · simp at h
      · split at h
        · simp at h
        · split at h
          · rw [exceptMap_ok] at h
            obtain ⟨⟨cmr, evr⟩, heq, hf⟩ := h
            simp only [Prod.mk.injEq] at hf
            rw [← hf.2]
            rcases List.mem_cons.mp hp with hp | hp
            · subst hp
              exact List.mem_cons_self _ _
            · exact List.mem_cons_of_mem _ (ih _ _ _ heq p hp hsuf)
          · simp at h
    · next hq =>
      rw [exceptMap_ok] at h
      obtain ⟨⟨cmr, evr⟩, heq, hf⟩ := h
      simp only [Prod.mk.injEq] at hf
      rw [← hf.2]
      rcases List.mem_cons.mp hp with hp | hp
      · subst hp
        exact absurd hsuf hq
      · exact List.mem_cons_of_mem _ (ih _ _ _ heq p hp hsuf)

theorem merge_error_fs (lib : Cjio) (base ptr : String) (fs : FS) (e : MergeErr)
    (h : (merge lib base ptr fs).result = .error e) : (merge lib base ptr fs).fs = fs := by
  unfold merge at h ⊢
  cases hb : FS.read fs base with
  | none => simp [hb]
  | some baseTxt =>
    simp only [hb] at h ⊢
    cases hj : jsonParse baseTxt with
    | none => simp [hj]
    | some j1 =>
      simp only [hj] at h ⊢
      cases j1 with
      | jobj kvs =>
        cases hp : FS.read fs ptr with
        | none => simp [hp]
        | some content =>
          simp only [hp] at h ⊢
          cases hr : processLines lib fs 1 (pythonLines content)
              (ensureKey (ensureKey (Json.jobj kvs) "CityObjects" (.jobj []))
                "vertices" (.jarr [])) with
          | error e2 => simp [hr]
          | ok pr =>
            simp only [hr] at h
            simp at h
      | jnull => simp
      | jbool b => simp
      | jnum i => simp
      | jstr s => simp
      | jarr xs => simp

theorem merge_ok_shape (lib : Cjio) (base ptr : String) (fs : FS) (cm2 : Json)
    (h : (merge lib base ptr fs).result = .ok cm2) :
    ∃ content evs,
      FS.read fs ptr = some content ∧
      (merge lib base ptr fs).fs = fs.unlinkF ptr ∧
      (merge lib base ptr fs).trace
        = [Ev.readF base, Ev.readF ptr] ++ evs ++ [Ev.unlink ptr] ∧
      ∃ kvs, processLines lib fs 1 (pythonLines content)
          (ensureKey (ensureKey (Json.jobj kvs) "CityObjects" (.jobj []))
            "vertices" (.jarr [])) = .ok (cm2, evs) := by
  unfold merge at h ⊢
  cases hb : FS.read fs base with
  | none => rw [hb] at h; simp at h
  | some baseTxt =>
    simp only [hb] at h ⊢
    cases hj : jsonParse baseTxt with
    | none => rw [hj] at h; simp at h
    | some j1 =>
      simp only [hj] at h ⊢
      cases j1 with
      | jobj kvs =>
        cases hp : FS.read fs ptr with
        | none => rw [hp] at h; simp at h
        | some content =>
          simp only [hp] at h ⊢
          cases hr : processLines lib fs 1 (pythonLines content)
              (ensureKey (ensureKey (Json.jobj kvs) "CityObjects" (.jobj []))
                "vertices" (.jarr [])) with
          | error e2 =>
            rw [hr] at h
            simp at h
          | ok pr =>
            obtain ⟨cmr, evs⟩ := pr
            rw [hr] at h
            simp only [Except.ok.injEq] at h
            subst h
            exact ⟨content, evs, rfl, by simp [hr], by simp [hr], kvs, hr⟩
      | jnull => simp at h
      | jbool b => simp at h
      | jnum i => simp at h
      | jstr s => simp at h
      | jarr xs => simp at h

theorem ensureKey_isObj (kvs : List (String × Json)) (k : String) (d : Json) :
    ∃ kvs2, ensureKey (Json.jobj kvs) k d = Json.jobj kvs2 := by
  unfold ensureKey
  by_cases h : (kvs.lookup k).isSome
  · exact ⟨kvs, by simp [h]⟩
  · exact ⟨kvs ++ [(k, d)], by simp [h]⟩

theorem hasKey_eq_isSome_getKey (j : Json) (k : String) :
    hasKey j k = (getKey j k).isSome := by
  cases j <;> rfl

theorem ensureKey_hasKey_other (j : Json) (k k2 : String) (d : Json) (hne : k ≠ k2) :
    hasKey (ensureKey j k2 d) k = hasKey j k := by
  rw [hasKey_eq_isSome_getKey, hasKey_eq_isSome_getKey, ensureKey_getKey_other j k k2 d hne]

/-- C10: the line counter used in the fragment type-mismatch error is
initialized to 1 and never incremented, so every such error raised by
`merge` reports line 1, whatever the failing fragment's actual position in
the pointer file. -/
theorem tyler_C10_error_line_always_one (lib : Cjio) (base ptr : String) (fs : FS) (n : Nat)
    (h : (merge lib base ptr fs).result = .error (.notCityJSONFeature n)) : n = 1 := by
  unfold merge at h
  cases hb : FS.read fs base with
  | none => simp only [hb] at h; simp at h
  | some baseTxt =>
    simp only [hb] at h
    cases hj : jsonParse baseTxt with
    | none => simp only [hj] at h; simp at h
    | some j1 =>
      simp only [hj] at h
      cases j1 with
      | jobj kvs =>
        cases hp : FS.read fs ptr with
        | none => simp only [hp] at h; simp at h
        | some content =>
          simp only [hp] at h
          cases hr : processLines lib fs 1 (pythonLines content)
              (ensureKey (ensureKey (Json.jobj kvs) "CityObjects" (.jobj []))
                "vertices" (.jarr [])) with
          | error e2 =>
            simp only [hr] at h
            simp only [Except.error.injEq] at h
            exact processLines_err_line lib fs 1 _ _ n (h ▸ hr)
          | ok pr =>
            simp only [hr] at h
            obtain ⟨cmr, evs⟩ := pr
            simp at h
      | jnull => simp at h
      | jbool b => simp at h
      | jnum i => simp at h
      | jstr s => simp at h
      | jarr xs => simp at h

/-- C10 witness: a concrete merge whose second fragment fails the type check
still reports line 1; the theorem applies to it. -/
theorem tyler_C10_witness :
    (merge libId "/base.city.json" "/ptr.txt" fsBadLine2).result
      = .error (.notCityJSONFeature 1) ∧ (1 : Nat) = 1 :=
  ⟨rfl, tyler_C10_error_line_always_one libId "/base.city.json" "/ptr.txt" fsBadLine2 1 rfl⟩

/-- C9: if `merge` exits with any error, the pointer file is not deleted:
the file system is returned unchanged, so the pointer file (when it
existed) is still on disk. -/
theorem tyler_C9_error_keeps_pointer (lib : Cjio) (base ptr : String) (fs : FS) (e : MergeErr)
    (h : (merge lib base ptr fs).result = .error e) :
    (merge lib base ptr fs).fs = fs
    ∧ ∀ c, fs.read ptr = some c → (merge lib base ptr fs).fs.read ptr = some c := by
  have hfs := merge_error_fs lib base ptr fs e h
  exact ⟨hfs, fun c hc => by rw [hfs]; exact hc⟩

/-- C9 witness: in the concrete failing merge the pointer file is still
present afterwards with its original contents. -/
theorem tyler_C9_witness :
    (merge libId "/base.city.json" "/ptr.txt" fsBadLine2).fs.read "/ptr.txt"
      = some "/f1.jsonl\n/f2.jsonl\n" :=
  (tyler_C9_error_keeps_pointer libId "/base.city.json" "/ptr.txt" fsBadLine2
    (.notCityJSONFeature 1) rfl).2 _ rfl

/-- C1 (code-bug evidence): with a pointer file whose SECOND line names the
fragment failing the `CityJSONFeature` type check, merge aborts the run, but
the raised error reports line 1 — it does not identify the failing
fragment's position — whatever the library does. -/
theorem tyler_C1_mismatch_reports_line_one :
    ∀ lib : Cjio, (merge lib "/base.city.json" "/ptr.txt" fsBadLine2).result
      = .error (.notCityJSONFeature 1) :=
  fun _ => rfl

theorem processLines_preserves_key (lib : Cjio) (fs : FS) (lc : Nat)
    (hpres : preservesCollections lib) (k : String)
    (hk : k = "CityObjects" ∨ k = "vertices") :
    ∀ (lines : List String) (cm cm2 : Json) (evs : List Ev),
      processLines lib fs lc lines cm = .ok (cm2, evs) →
      hasKey cm k = true → hasKey cm2 k = true := by
  intro lines
  induction lines with
  | nil =>
    intro cm cm2 evs h hcm
    simp [processLines] at h
    rw [← h.1]
    exact hcm
  | cons p rest ih =>
    intro cm cm2 evs h hcm
    simp only [processLines] at h
    split at h
    · split at h
      · simp at h
      · split at h
        · simp at h
        · split at h
          · rw [exceptMap_ok] at h
            obtain ⟨⟨cmr, evr⟩, heq, hf⟩ := h
            simp only [Prod.mk.injEq] at hf
            rw [← hf.1]
            exact ih _ _ _ heq (hpres cm _ k hk hcm)
          · simp at h
    · rw [exceptMap_ok] at h
      obtain ⟨⟨cmr, evr⟩, heq, hf⟩ := h
      simp only [Prod.mk.injEq] at hf
      rw [← hf.1]
      exact ih _ _ _ heq hcm

/-- C2: the Document returned by every successful merge contains both the
`CityObjects` mapping and the `vertices` sequence — `merge` initializes them
empty when absent from the base and the library's fold (which per the spec
appends into those collections) keeps them present — and in particular, for
every valid (dict) base document and an empty fragment list (an empty
pointer file), the merge output equals the base document with the two
collections guaranteed present: appended empty exactly when absent, and the
base returned unchanged when both were already present. -/
theorem tyler_C2_merge_collections (lib : Cjio) (fs : FS) (base ptr : String)
    (hpres : preservesCollections lib) :
    (∀ cm2, (merge lib base ptr fs).result = .ok cm2 →
        hasKey cm2 "CityObjects" = true ∧ hasKey cm2 "vertices" = true)
    ∧ (∀ s kvs, fs.read base = some s → jsonParse s = some (.jobj kvs) →
        fs.read ptr = some "" →
        (merge lib base ptr fs).result
          = .ok (ensureKey (ensureKey (Json.jobj kvs) "CityObjects" (.jobj []))
              "vertices" (.jarr []))
        ∧ (hasKey (Json.jobj kvs) "CityObjects" = false →
            getKey (ensureKey (ensureKey (Json.jobj kvs) "CityObjects" (.jobj []))
              "vertices" (.jarr [])) "CityObjects" = some (.jobj []))
        ∧ (hasKey (Json.jobj kvs) "vertices" = false →
            getKey (ensureKey (ensureKey (Json.jobj kvs) "CityObjects" (.jobj []))
              "vertices" (.jarr [])) "vertices" = some (.jarr []))
        ∧ (hasKey (Json.jobj kvs) "CityObjects" = true →
            hasKey (Json.jobj kvs) "vertices" = true →
            ensureKey (ensureKey (Json.jobj kvs) "CityObjects" (.jobj []))
              "vertices" (.jarr []) = Json.jobj kvs)) := by
  constructor
  · intro cm2 h
    obtain ⟨content, evs, hptr, hfs, htr, kvs, hproc⟩ := merge_ok_shape lib base ptr fs cm2 h
    obtain ⟨kvs1, hkvs1⟩ := ensureKey_isObj kvs "CityObjects" (.jobj [])
    have hco : hasKey (ensureKey (ensureKey (Json.jobj kvs) "CityObjects" (.jobj []))
        "vertices" (.jarr [])) "CityObjects" = true :=
      ensureKey_hasKey_mono _ _ _ _ (ensureKey_hasKey_self kvs "CityObjects" (.jobj []))
    have hv : hasKey (ensureKey (ensureKey (Json.jobj kvs) "CityObjects" (.jobj []))
        "vertices" (.jarr [])) "vertices" = true := by
      rw [hkvs1]
      exact ensureKey_hasKey_self kvs1 "vertices" (.jarr [])
    exact ⟨processLines_preserves_key lib fs 1 hpres "CityObjects" (Or.inl rfl)
        _ _ _ _ hproc hco,
      processLines_preserves_key lib fs 1 hpres "vertices" (Or.inr rfl)
        _ _ _ _ hproc hv⟩
  · intro s kvs hbase hparse hptr
    obtain ⟨kvs1, hkvs1⟩ := ensureKey_isObj kvs "CityObjects" (.jobj [])
    refine ⟨?_, ?_, ?_, ?_⟩
    · unfold merge
      simp only [hbase, hparse, hptr]
      simp [pythonLines, pyLinesAux, processLines]
    · intro habs
      rw [ensureKey_getKey_other _ _ _ _ (by decide)]
      exact ensureKey_getKey_self kvs "CityObjects" (.jobj []) habs
    · intro habs
      rw [hkvs1]
      refine ensureKey_getKey_self kvs1 "vertices" (.jarr []) ?_
      rw [← hkvs1, ensureKey_hasKey_other _ _ _ _ (by decide)]
      exact habs
    · intro h1 h2
      rw [ensureKey_id _ _ _ h1]
      exact ensureKey_id _ _ _ h2

/-- C2 witness: a concrete successful merge that folds in a real fragment
still carries both collections, and a concrete base lacking both, merged
with an empty pointer file, yields exactly the base with the two collections
appended empty. -/
theorem tyler_C2_witness :
    hasKey (Json.jobj [("CityObjects", Json.jobj []), ("vertices", Json.jarr [])])
        "CityObjects" = true
    ∧ hasKey (Json.jobj [("CityObjects", Json.jobj []), ("vertices", Json.jarr [])])
        "vertices" = true
    ∧ (merge libId "/base.city.json" "/ptr.txt" fsEmptyPtr).result
        = .ok (Json.jobj [("k", Json.jbool true), ("CityObjects", Json.jobj []),
            ("vertices", Json.jarr [])]) := by
  have hpres : preservesCollections libId := fun cm f k hk h => h
  have h1 := (tyler_C2_merge_collections libId fsGood "/base.city.json" "/ptr.txt" hpres).1
    (Json.jobj [("CityObjects", Json.jobj []), ("vertices", Json.jarr [])]) rfl
  have h2 := ((tyler_C2_merge_collections libId fsEmptyPtr "/base.city.json" "/ptr.txt"
    hpres).2 "\x7b\"k\":true\x7d" [("k", Json.jbool true)] rfl rfl rfl).1
  exact ⟨h1.1, h1.2, h2⟩

/-- C5: after a successful merge the pointer file no longer exists on disk,
and its deletion is the very last event of the merge: every event before it
is a fragment read or a skip diagnostic (never an unlink), and every listed
`.jsonl` fragment path has been read before it. -/
theorem tyler_C5_pointer_deleted_last (lib : Cjio) (base ptr : String) (fs : FS)
    (cm2 : Json) (h : (merge lib base ptr fs).result = .ok cm2) :
    (merge lib base ptr fs).fs.read ptr = none
    ∧ ∃ pre, (merge lib base ptr fs).trace = pre ++ [Ev.unlink ptr]
        ∧ (∀ e ∈ pre, ∀ q, e ≠ Ev.unlink q)
        ∧ (∀ content, fs.read ptr = some content →
            ∀ p ∈ pythonLines content, pathSuffix (stripNl p) = ".jsonl" →
              Ev.readF (stripNl p) ∈ pre) := by
  obtain ⟨content, evs, hptr, hfs, htr, kvs, hproc⟩ := merge_ok_shape lib base ptr fs cm2 h
  refine ⟨by rw [hfs]; exact FS.read_unlinkF_self fs ptr,
    [Ev.readF base, Ev.readF ptr] ++ evs, by rw [htr], ?_, ?_⟩
  · intro e he q
    rcases List.mem_append.mp he with he | he
    · fin_cases he <;> simp
    · rcases processLines_ok_evs lib fs 1 _ _ _ _ hproc e he with ⟨q2, hq2⟩ | ⟨m, hm⟩
      · simp [hq2]
      · simp [hm]
  · intro content2 hc2 p hp hsuf
    have hceq : content2 = content := by
      rw [hc2] at hptr
      exact Option.some.inj hptr
    subst hceq
    exact List.mem_append.mpr (Or.inr (processLines_reads lib fs 1 _ _ _ _ hproc p hp hsuf))

/-- C5 witness: a concrete successful merge; afterwards the pointer file is
gone. -/
theorem tyler_C5_witness :
    (merge libId "/base.city.json" "/ptr.txt" fsGood).fs.read "/ptr.txt" = none :=
  (tyler_C5_pointer_deleted_last libId "/base.city.json" "/ptr.txt" fsGood
    (Json.jobj [("CityObjects", Json.jobj []), ("vertices", Json.jarr [])]) rfl).1

/-- C4: when the output-format argument is present but not in the supported
set, the run terminates with the ValueError before any I/O: the file system
is returned unchanged and the event trace is empty (no directory created, no
file read, written, or deleted). -/
theorem tyler_C4_invalid_format (lib : Cjio) (argv : List String) (fs : FS) (fmt : String)
    (h1 : argv[1]? = some fmt) (h2 : fmt ∉ supported_formats) :
    runMain lib argv fs = ⟨fs, [], .error (.unsupportedFormat fmt)⟩ := by
  unfold runMain
  simp only [h1]
  rw [if_neg h2]

/-- C4 witness: format `"obj"` is rejected with no file-system change and an
empty trace. -/
theorem tyler_C4_witness :
    runMain libId ["prog", "obj", "out/t.json", "/base.city.json", "/ptr.txt"] fsGood
      = ⟨fsGood, [], .error (.unsupportedFormat "obj")⟩ :=
  tyler_C4_invalid_format libId _ fsGood "obj" rfl (by decide)

theorem strEndsWith_intro (pre : List Char) (s t : String) (h : s.data = pre ++ t.data) :
    strEndsWith s t = true := by
  unfold strEndsWith
  rw [h, List.length_append]
  have hlen : pre.length + t.data.length - t.data.length = pre.length := by omega
  rw [hlen, List.drop_left]
  simp

theorem dropWhile_head_false {α : Type} (p : α → Bool) :
    ∀ (l : List α) (d : α) (t : List α), l.dropWhile p = d :: t → p d = false := by
  intro l
  induction l with
  | nil => intro d t h; simp at h
  | cons c cs ih =>
    intro d t h
    rw [List.dropWhile_cons] at h
    split at h
    · exact ih d t h
    · next hc =>
      obtain ⟨rfl, _⟩ : c = d ∧ cs = t := by
        simpa using h
      simpa using hc

theorem rev_dot_decomp (l : List Char)
    (h : (l.takeWhile (fun c => c ≠ '.')).length < l.length) :
    ∃ rt, l = l.takeWhile (fun c => c ≠ '.') ++ '.' :: rt := by
  have hsplit : l.takeWhile (fun c => c ≠ '.') ++ l.dropWhile (fun c => c ≠ '.') = l :=
    List.takeWhile_append_dropWhile _ _
  have hlen : (l.takeWhile (fun c => c ≠ '.')).length
      + (l.dropWhile (fun c => c ≠ '.')).length = l.length := by
    have h2 := congrArg List.length hsplit
    rw [List.length_append] at h2
    exact h2
  obtain ⟨r0, rt, hr⟩ : ∃ r0 rt, l.dropWhile (fun c => c ≠ '.') = r0 :: rt := by
    cases hx : l.dropWhile (fun c => c ≠ '.') with
    | nil => rw [hx] at hlen; simp only [List.length_nil] at hlen; omega
    | cons r0 rt => exact ⟨r0, rt, rfl⟩
  have hr0 : r0 = '.' := by
    have h3 := dropWhile_head_false (fun c => c ≠ '.') l r0 rt hr
    simpa using h3
  refine ⟨rt, ?_⟩
  conv_lhs => rw [← hsplit]
  rw [hr, hr0]

theorem pathSuffix_suffix_of_name (q : String) :
    pathSuffix q = "" ∨ ∃ t, (pathName q).data = t ++ (pathSuffix q).data := by
  by_cases hc : ((pathName q).data.reverse.takeWhile (fun c => c ≠ '.')).length ≠ 0 ∧
      ((pathName q).data.reverse.takeWhile (fun c => c ≠ '.')).length + 1
        < (pathName q).data.length
  · right
    have hps : (pathSuffix q).data
        = '.' :: ((pathName q).data.reverse.takeWhile (fun c => c ≠ '.')).reverse := by
      unfold pathSuffix
      rw [if_pos hc]
    obtain ⟨hc1, hc2⟩ := hc
    have hlt : ((pathName q).data.reverse.takeWhile (fun c => c ≠ '.')).length
        < (pathName q).data.reverse.length := by
      rw [List.length_reverse]
      omega
    obtain ⟨rt, hdec⟩ := rev_dot_decomp (pathName q).data.reverse hlt
    refine ⟨rt.reverse, ?_⟩
    rw [hps]
    have h4 := congrArg List.reverse hdec
    simpa [List.reverse_append] using h4
  · left
    unfold pathSuffix
    rw [if_neg hc]

theorem pathSuffix_ne_of_not_endsWith (q : String)
    (h : strEndsWith (pathName q) ".jsonl" = false) : pathSuffix q ≠ ".jsonl" := by
  intro hs
  rcases pathSuffix_suffix_of_name q with h0 | ⟨t, ht⟩
  · rw [hs] at h0
    simp at h0
  · rw [hs] at ht
    rw [strEndsWith_intro t (pathName q) ".jsonl" ht] at h
    cases h

/-- C6: a pointer-file line whose filename does not end in ".jsonl" is
skipped with the printed diagnostic, and the loop continues on the remaining
lines with the document untouched: the result on `p :: rest` is exactly the
result on `rest` with the diagnostic prepended (same errors, same merged
document). -/
theorem tyler_C6_skip_non_jsonl (lib : Cjio) (fs : FS) (lc : Nat) (p : String)
    (rest : List String) (cm : Json)
    (h : strEndsWith (pathName (stripNl p)) ".jsonl" = false) :
    processLines lib fs lc (p :: rest) cm
      = (processLines lib fs lc rest cm).map
          (fun r => (r.1, Ev.print (skipMsg (stripNl p)) :: r.2)) := by
  have hsuf : ¬ pathSuffix (stripNl p) = ".jsonl" :=
    pathSuffix_ne_of_not_endsWith (stripNl p) h
  simp only [processLines]
  rw [if_neg hsuf]

/-- C6 witness: the concrete non-fragment line "notes.txt" is skipped with
its diagnostic and the (empty) remainder still merges. -/
theorem tyler_C6_witness :
    processLines libId fsGood 1 ["notes.txt"] (Json.jobj [])
      = .ok (Json.jobj [], [Ev.print (skipMsg "notes.txt")]) := by
  rw [tyler_C6_skip_non_jsonl libId fsGood 1 "notes.txt" [] (Json.jobj []) rfl]
  rfl

theorem tileLoop_shape (lib : Cjio) (f : String) :
    ∀ (pairs : List (String × String)) (hp : Heap) (fs : FS) (loc : Nat) (v : Json),
      hp.get loc = some v →
      (tileLoop lib f loc pairs hp fs).1.get loc = some v
      ∧ writePaths (tileLoop lib f loc pairs hp fs).2.2
          = pairs.map (fun ls => tilePath f ls.2)
      ∧ writeContents (tileLoop lib f loc pairs hp fs).2.2
          = pairs.map (fun ls => lib.export2glb (lib.filterLod ls.1 v)) := by
  intro pairs
  induction pairs with
  | nil =>
    intro hp fs loc v hv
    exact ⟨hv, rfl, rfl⟩
  | cons pr rest ih =>
    intro hp fs loc v hv
    obtain ⟨lod, suffix⟩ := pr
    have hv2 : hp.cells[loc]? = some v := hv
    have hloc : loc < hp.cells.length := by
      by_contra hcon
      push_neg at hcon
      rw [List.getElem?_eq_none hcon] at hv2
      cases hv2
    have hne : hp.cells.length ≠ loc := by omega
    have hlen2 : hp.cells.length < (hp.cells ++ [v]).length := by simp
    have hstep : tileLoop lib f loc ((lod, suffix) :: rest) hp fs
        = (let h2 : Heap := ⟨(hp.cells ++ [v]).set hp.cells.length (lib.filterLod lod v)⟩
           let r := tileLoop lib f loc rest h2
             (fs.write (tilePath f suffix) (lib.export2glb (lib.filterLod lod v)))
           (r.1, r.2.1, Ev.filterLod lod :: Ev.exportGlb ::
             Ev.write (tilePath f suffix) (lib.export2glb (lib.filterLod lod v)) :: r.2.2)) := by
      simp only [tileLoop, Heap.get, Heap.alloc, Heap.setCell, hv2, Option.getD_some,
        List.getElem?_concat_length, List.getElem?_set_self hlen2]
    rw [hstep]
    have hv3 : (⟨(hp.cells ++ [v]).set hp.cells.length (lib.filterLod lod v)⟩ : Heap).get loc
        = some v := by
      unfold Heap.get
      rw [List.getElem?_set_ne hne, List.getElem?_append_left hloc]
      exact hv2
    obtain ⟨ih1, ih2, ih3⟩ := ih ⟨(hp.cells ++ [v]).set hp.cells.length (lib.filterLod lod v)⟩
      (fs.write (tilePath f suffix) (lib.export2glb (lib.filterLod lod v))) loc v hv3
    refine ⟨ih1, ?_, ?_⟩
    · simp only [writePaths, List.filterMap_cons] at ih2 ⊢
      simp only [List.map_cons]
      rw [← ih2]
    · simp only [writeContents, List.filterMap_cons] at ih3 ⊢
      simp only [List.map_cons]
      rw [← ih3]

/-- C8: in the `3dtiles` branch each level-of-detail export operates on an
independent deep copy of the reprojected document: after the whole loop the
`cm` variable still holds exactly the reprojected document, and every
level's exported glb is computed from a filter of that untouched document
(not of a document filtered by an earlier iteration). -/
theorem tyler_C8_deepcopy_isolation (lib : Cjio) (f : String) (cm : Json) (fs : FS) :
    (run3dtiles lib f cm fs).cm = lib.reproject 4978 cm
    ∧ writeContents (run3dtiles lib f cm fs).trace
        = lod_file_names.map
            (fun ls => lib.export2glb (lib.filterLod ls.1 (lib.reproject 4978 cm))) := by
  obtain ⟨h1, h2, h3⟩ := tileLoop_shape lib f lod_file_names ⟨[lib.reproject 4978 cm]⟩ fs 0
    (lib.reproject 4978 cm) rfl
  unfold run3dtiles
  constructor
  · simp only [h1, Option.getD_some]
  · simp only [writeContents, List.filterMap_cons] at h3 ⊢
    exact h3

theorem strDataInj {s t : String} (h : s.data = t.data) : s = t := by
  cases s
  cases t
  exact congrArg String.mk h

theorem takeWhile_all {α : Type} (p : α → Bool) :
    ∀ l : List α, (∀ c ∈ l, p c = true) → l.takeWhile p = l := by
  intro l
  induction l with
  | nil => intro _; simp
  | cons c cs ih =>
    intro h
    rw [List.takeWhile_cons_of_pos (h c (by simp))]
    rw [ih (fun x hx => h x (by simp [hx]))]

theorem pathName_no_slash (p : String) : ∀ c ∈ (pathName p).data, c ≠ '/' := by
  intro c hc
  unfold pathName at hc
  have hc2 : c ∈ p.data.reverse.takeWhile (fun c => c ≠ '/') := by
    simpa using hc
  have h3 := List.mem_takeWhile_imp hc2
  simpa using h3

theorem pathStem_mem_name (p : String) : ∀ c ∈ (pathStem p).data, c ∈ (pathName p).data := by
  intro c hc
  unfold pathStem at hc
  dsimp only at hc
  split at hc
  · have hc2 : c ∈ (pathName p).data.take
        ((pathName p).data.length
          - (((pathName p).data.reverse.takeWhile (fun c => c ≠ '.')).length + 1)) := by
      simpa using hc
    exact List.mem_of_mem_take hc2
  · simpa using hc

theorem pathStem_no_slash (p : String) : ∀ c ∈ (pathStem p).data, c ≠ '/' :=
  fun c hc => pathName_no_slash p c (pathStem_mem_name p c hc)

theorem nameOfList (l r : List Char) (h : ∀ c ∈ r, c ≠ '/') :
    ((l ++ '/' :: r).reverse.takeWhile (fun c => c ≠ '/')).reverse = r := by
  have hrev : ∀ c ∈ r.reverse, (fun c => decide (c ≠ '/')) c = true := by
    intro c hc
    simp only [decide_eq_true_eq]
    exact h c (List.mem_reverse.mp hc)
  have hshape : (l ++ '/' :: r).reverse = r.reverse ++ ('/' :: l.reverse) := by
    simp
  rw [hshape, takeWhile_append_of_all _ _ _ hrev]
  have hstop : ('/' :: l.reverse).takeWhile (fun c => c ≠ '/') = [] := by
    rw [List.takeWhile_cons_of_neg]
    simp
  rw [hstop]
  simp

theorem parentOfList (l r : List Char) (h : ∀ c ∈ r, c ≠ '/') :
    (((l ++ '/' :: r).reverse.dropWhile (fun c => c ≠ '/')).tail).reverse = l := by
  have hrev : ∀ c ∈ r.reverse, (fun c => decide (c ≠ '/')) c = true := by
    intro c hc
    simp only [decide_eq_true_eq]
    exact h c (List.mem_reverse.mp hc)
  have hshape : (l ++ '/' :: r).reverse = r.reverse ++ ('/' :: l.reverse) := by
    simp
  rw [hshape, dropWhile_append_of_all _ _ _ hrev]
  have hstop : ('/' :: l.reverse).dropWhile (fun c => c ≠ '/') = '/' :: l.reverse := by
    rw [List.dropWhile_cons_of_neg]
    simp
  rw [hstop]
  simp

theorem pathName_joinPath (p n : String) (hn : ∀ c ∈ n.data, c ≠ '/') :
    pathName (joinPath p n) = n := by
  have hrev : ∀ c ∈ n.data.reverse, (fun c => decide (c ≠ '/')) c = true := by
    intro c hc
    simp only [decide_eq_true_eq]
    exact hn c (List.mem_reverse.mp hc)
  unfold joinPath
  by_cases h1 : p = "."
  · rw [if_pos h1]
    unfold pathName
    rw [takeWhile_all _ _ hrev]
    apply strDataInj
    simp
  · rw [if_neg h1]
    by_cases h2 : p = "/"
    · rw [if_pos h2]
      unfold pathName
      apply strDataInj
      have hd : ("/" ++ n).data = [] ++ '/' :: n.data := rfl
      rw [hd, nameOfList [] n.data hn]
    · rw [if_neg h2]
      unfold pathName
      apply strDataInj
      have hd : (p ++ "/" ++ n).data = p.data ++ '/' :: n.data := by
        show (p.data ++ "/".data) ++ n.data = p.data ++ '/' :: n.data
        simp
      rw [hd, nameOfList p.data n.data hn]

theorem pathParent_ne_empty (p : String) : pathParent p ≠ "" := by
  unfold pathParent
  by_cases h : p.data.contains '/' = true
  · rw [if_pos h]
    dsimp only
    split
    · simp
    · next h2 => exact h2
  · rw [if_neg h]
    simp

theorem hpar0 (n : String) (hn : ∀ c ∈ n.data, c ≠ '/') :
    ((([] ++ '/' :: n.data).reverse.dropWhile (fun c => c ≠ '/')).tail).reverse
      = ([] : List Char) :=
  parentOfList [] n.data hn

theorem pathParent_joinPath (p n : String) (hp : p ≠ "") (hn : ∀ c ∈ n.data, c ≠ '/') :
    pathParent (joinPath p n) = p := by
  unfold joinPath
  by_cases h1 : p = "."
  · rw [if_pos h1]
    unfold pathParent
    have hmem : '/' ∉ n.data := fun hm => hn '/' hm rfl
    rw [if_neg (by simpa using hmem)]
    exact h1.symm
  · rw [if_neg h1]
    by_cases h2 : p = "/"
    · rw [if_pos h2]
      unfold pathParent
      have hd : ("/" ++ n).data = [] ++ '/' :: n.data := rfl
      have hc : ("/" ++ n).data.contains '/' = true := by
        rw [hd]
        simp
      rw [if_pos hc]
      dsimp only
      rw [hd, hpar0 n hn]
      simp [h2]
    · rw [if_neg h2]
      unfold pathParent
      have hd : (p ++ "/" ++ n).data = p.data ++ '/' :: n.data := by
        show (p.data ++ "/".data) ++ n.data = p.data ++ '/' :: n.data
        simp
      have hc : (p ++ "/" ++ n).data.contains '/' = true := by
        rw [hd]
        simp
      rw [if_pos hc]
      dsimp only
      rw [hd, parentOfList p.data n.data hn, strMkData]
      rw [if_neg hp]

theorem pathSuffix_of_dotless (q : String) (hd : ∀ c ∈ (pathName q).data, c ≠ '.') :
    pathSuffix q = "" := by
  unfold pathSuffix
  have hrev : ∀ c ∈ (pathName q).data.reverse, (fun c => decide (c ≠ '.')) c = true := by
    intro c hc
    simp only [decide_eq_true_eq]
    exact hd c (List.mem_reverse.mp hc)
  rw [if_neg]
  rw [takeWhile_all _ _ hrev]
  simp

theorem joinPath_data_shape (p m : String) : ∃ pre, (joinPath p m).data = pre ++ m.data := by
  unfold joinPath
  by_cases h1 : p = "."
  · rw [if_pos h1]
    exact ⟨[], rfl⟩
  · rw [if_neg h1]
    by_cases h2 : p = "/"
    · rw [if_pos h2]
      exact ⟨['/'], rfl⟩
    · rw [if_neg h2]
      exact ⟨p.data ++ ['/'], by show (p.data ++ "/".data) ++ m.data = _; simp⟩

theorem withSuffix_glb (q : String) : ∃ pre, (withSuffix q ".glb").data = pre ++ ".glb".data := by
  unfold withSuffix
  dsimp only
  by_cases h : pathSuffix q = ""
  · rw [if_pos h]
    obtain ⟨pre0, hpre⟩ := joinPath_data_shape (pathParent q) (pathName q ++ ".glb")
    refine ⟨pre0 ++ (pathName q).data, ?_⟩
    rw [hpre]
    show pre0 ++ ((pathName q).data ++ ".glb".data) = _
    rw [List.append_assoc]
  · rw [if_neg h]
    obtain ⟨pre0, hpre⟩ := joinPath_data_shape (pathParent q)
      (String.mk ((pathName q).data.take
        ((pathName q).data.length - (pathSuffix q).data.length)) ++ ".glb")
    refine ⟨pre0 ++ (pathName q).data.take
      ((pathName q).data.length - (pathSuffix q).data.length), ?_⟩
    rw [hpre]
    show pre0 ++ ((pathName q).data.take
      ((pathName q).data.length - (pathSuffix q).data.length) ++ ".glb".data) = _
    rw [List.append_assoc]

theorem tilePath_glb (f s : String) : ∃ pre, (tilePath f s).data = pre ++ ".glb".data :=
  withSuffix_glb _

theorem tilePath_dotless (f : String) (hd : ∀ c ∈ (pathStem f).data, c ≠ '.') :
    tilePath f "" = joinPath (pathParent f) (pathStem f ++ ".glb") := by
  unfold tilePath
  rw [String.append_empty]
  have hn : ∀ c ∈ (pathStem f).data, c ≠ '/' := pathStem_no_slash f
  have hname : pathName (joinPath (pathParent f) (pathStem f)) = pathStem f :=
    pathName_joinPath _ _ hn
  have hparent : pathParent (joinPath (pathParent f) (pathStem f)) = pathParent f :=
    pathParent_joinPath _ _ (pathParent_ne_empty f) hn
  have hsuf : pathSuffix (joinPath (pathParent f) (pathStem f)) = "" := by
    apply pathSuffix_of_dotless
    rw [hname]
    exact hd
  unfold withSuffix
  dsimp only
  rw [hname, hsuf, hparent, if_pos rfl]

/-- C3 counterexample: with output file `d/out.city.json` (whose stem
`out.city` contains a dot), the single tile of the hardcoded list is written
to `d/out.glb` — not to base-name ++ suffix ++ ".glb" = `d/out.city.glb` as
the claim's naming rule would demand: `with_suffix` replaces the stem's
trailing dot segment. -/
theorem tyler_C3_counterexample :
    writePaths (run3dtiles libId "d/out.city.json" (Json.jobj []) ⟨[], []⟩).trace
      = ["d/out.glb"]
    ∧ pathStem "d/out.city.json" ++ "" ++ ".glb" = "out.city.glb"
    ∧ joinPath (pathParent "d/out.city.json") "out.city.glb" = "d/out.city.glb"
    ∧ ("d/out.glb" : String) ≠ "d/out.city.glb" :=
  ⟨rfl, rfl, rfl, by decide⟩

/-- C3 (amended): tiled-mesh export writes exactly one binary file per entry
of the fixed level-of-detail list, at
`with_suffix(parent / (stem + suffix), ".glb")`; every written path ends in
the fixed `.glb` extension, and the reprojection to EPSG 4978 is performed
before any level-of-detail export.  When the output file's base name (stem,
plus the pair's suffix) contains no dot, the written path is exactly
`parent/(stem + suffix + ".glb")` — the plain "append the suffix to the base
name" rule of the original claim holds in that case (and fails otherwise, as
the counterexample shows). -/
theorem tyler_C3_tiled_export (lib : Cjio) (f : String) (cm : Json) (fs : FS) :
    (writePaths (run3dtiles lib f cm fs).trace).length = lod_file_names.length
    ∧ writePaths (run3dtiles lib f cm fs).trace
        = lod_file_names.map (fun ls => tilePath f ls.2)
    ∧ (∀ p ∈ writePaths (run3dtiles lib f cm fs).trace,
        ∃ pre, p.data = pre ++ ".glb".data)
    ∧ (run3dtiles lib f cm fs).trace.head? = some (Ev.reproject 4978)
    ∧ (pathName f ≠ "" → (∀ c ∈ (pathStem f).data, c ≠ '.') →
        writePaths (run3dtiles lib f cm fs).trace
          = [joinPath (pathParent f) (pathStem f ++ ".glb")]) := by
  obtain ⟨h1, h2, h3⟩ := tileLoop_shape lib f lod_file_names ⟨[lib.reproject 4978 cm]⟩ fs 0
    (lib.reproject 4978 cm) rfl
  have hwp : writePaths (run3dtiles lib f cm fs).trace
      = lod_file_names.map (fun ls => tilePath f ls.2) := by
    unfold run3dtiles
    dsimp only
    simp only [writePaths, List.filterMap_cons] at h2 ⊢
    exact h2
  refine ⟨by rw [hwp]; simp, hwp, ?_, ?_, ?_⟩
  · intro p hp
    rw [hwp] at hp
    simp only [List.mem_map] at hp
    obtain ⟨ls, _, hpeq⟩ := hp
    rw [← hpeq]
    exact tilePath_glb f ls.2
  · unfold run3dtiles
    rfl
  · intro _hname hdot
    rw [hwp]
    simp only [lod_file_names, List.map_cons, List.map_nil]
    rw [tilePath_dotless f hdot]

/-- C3 witness for the amended theorem: a dotless output stem gets the plain
appended name, here `d/tile.json` ↦ `d/tile.glb`, with the reprojection
event first. -/
theorem tyler_C3_witness :
    writePaths (run3dtiles libId "d/tile.json" (Json.jobj []) ⟨[], []⟩).trace = ["d/tile.glb"]
    ∧ (run3dtiles libId "d/tile.json" (Json.jobj []) ⟨[], []⟩).trace.head?
        = some (Ev.reproject 4978) := by
  obtain ⟨_, _, _, h4, h5⟩ := tyler_C3_tiled_export libId "d/tile.json" (Json.jobj []) ⟨[], []⟩
  refine ⟨?_, h4⟩
  rw [h5 (by decide) (by decide)]
  rfl

/-- C7: the `cityjson` branch writes `json.dumps(cm.j, separators=(',', ':'))`
to the output path; re-parsing the written text yields a document
structurally equal to the in-memory one, and whenever the document's own
strings are whitespace-free the written text contains no whitespace at all —
the compact separators introduce none. -/
theorem tyler_C7_verbatim_roundtrip (f : String) (cm : Json) (fs : FS) :
    ∃ content, (writeCityjson f cm fs).1.read f = some content
      ∧ jsonParse content = some cm
      ∧ (noWsJson cm = true → ∀ c ∈ content.data, c.isWhitespace = false) := by
  refine ⟨String.mk (dumps cm), FS.read_write_self fs f _, jsonParse_dumps cm, ?_⟩
  intro h c hc
  exact dumps_noWs cm h c hc

/-- C7 witness: a concrete document written, re-read, re-parsed and checked
whitespace-free. -/
theorem tyler_C7_witness :
    (writeCityjson "o.json" (Json.jobj [("k", Json.jstr "v")]) ⟨[], []⟩).1.read "o.json"
      = some "\x7b\"k\":\"v\"\x7d"
    ∧ jsonParse "\x7b\"k\":\"v\"\x7d" = some (Json.jobj [("k", Json.jstr "v")])
    ∧ ("\x7b\"k\":\"v\"\x7d" : String).data.all (fun c => !c.isWhitespace) = true := by
  obtain ⟨content, hread, hparse, hws⟩ :=
    tyler_C7_verbatim_roundtrip "o.json" (Json.jobj [("k", Json.jstr "v")]) ⟨[], []⟩
  have h0 : (writeCityjson "o.json" (Json.jobj [("k", Json.jstr "v")]) ⟨[], []⟩).1.read "o.json"
      = some "\x7b\"k\":\"v\"\x7d" := rfl
  rw [h0] at hread
  have hc : content = "\x7b\"k\":\"v\"\x7d" := (Option.some.inj hread).symm
  subst hc
  refine ⟨h0, hparse, ?_⟩
  exact List.all_eq_true.mpr (fun c hcm => by simp [hws rfl c hcm])

end Tyler

